import Mathlib

/-!
Verification of the `ringhash` consistent-hashing ring (`src/lib.rs`).

Shallow embedding conventions:

* `circle : DashMap<u32, FastStr>` is modelled as an association list
  `List (Nat × String)`; `DashMap::insert` replaces the (unique) entry with the
  given key or appends a fresh one, `DashMap::remove` deletes it, and
  `DashMap::get` is first-match lookup.  The list order is a modelling artifact
  (DashMap iteration order is unspecified); every verified statement is
  insensitive to it.
* `members : DashSet<FastStr>` is a duplicate-free `List String`.
* `sorted_hashes : RwLock<Vec<u32>>` is a `List Nat`; the lock is invisible in
  the sequential semantics.
* `count : AtomicUsize` is a `Nat` reduced modulo `2 ^ 64`: `fetch_add(1)` and
  `fetch_sub(1)` are wrapping on `usize` (64-bit target assumed).
* `hash_key` calls `fxhash::hash32`, an external crate.  The embedding abstracts
  it as a parameter `h : String → Nat`; every property below is independent of
  the concrete hash function, and collision hypotheses are stated explicitly.
* The `while` loops inside `get_two` / `get_n` are fuel-indexed recursions whose
  result `none` means the loop has not yet exited after the given number of
  iterations; `∀ fuel, … = none` therefore expresses non-termination.
* `Option.unwrap()` on the circle lookup is modelled by `unwrapStr` (default
  value on `none`); at every state considered by the theorems the lookup is
  proved to succeed, so the default is never exercised.
* `Vec::partition_point(|x| *x <= key)` returns, for a slice that is partitioned
  by the predicate (which `sorted_hashes` is, being sorted ascending), the
  number of elements satisfying it, i.e. the length of the longest satisfying
  prefix: it is modelled by `List.takeWhile`'s length.
* `update_sorted_hashes` pushes the circle keys in iteration order and calls
  `Vec::sort`; since sorting is order-insensitive and the keys are pairwise
  distinct, the result is the unique ascending ordering of the keys, modelled
  with `List.insertionSort`.  The capacity-shrinking branch is allocation
  management with no observable effect (note it divides by
  `number_of_replicas * 4`, so every state used below has `0 < number_of_replicas`).
-/

/-- The single error kind of the crate (`enum Error { EmptyCircle }`). -/
inductive Error where
  | emptyCircle
deriving DecidableEq

deriving instance DecidableEq for Except

/-- Model of `DashMap::get`: first-match association-list lookup. -/
def circleGet : List (Nat × String) → Nat → Option String
  | [], _ => none
  | kv :: rest, k => if kv.1 = k then some kv.2 else circleGet rest k

/-- Model of `DashMap::insert`: replace the entry holding key `k`, or append a
fresh entry when the key is absent. -/
def circleInsert : List (Nat × String) → Nat → String → List (Nat × String)
  | [], k, v => [(k, v)]
  | kv :: rest, k, v => if kv.1 = k then (k, v) :: rest else kv :: circleInsert rest k v

/-- Model of `DashMap::remove`: delete the entry holding key `k` (if any). -/
def circleRemove : List (Nat × String) → Nat → List (Nat × String)
  | [], _ => []
  | kv :: rest, k => if kv.1 = k then circleRemove rest k else kv :: circleRemove rest k

/-- Model of `DashSet::insert`. -/
def membersInsert (ms : List String) (v : String) : List String :=
  if v ∈ ms then ms else ms ++ [v]

/-- Model of `DashSet::remove`. -/
def membersRemove : List String → String → List String
  | [], _ => []
  | m :: rest, v => if m = v then membersRemove rest v else m :: membersRemove rest v

/-- `fn elt_key(elt: &str, idx: usize) -> String { format!("{}{}", idx, elt) }` -/
def elt_key (elt : String) (idx : Nat) : String :=
  toString idx ++ elt

/-- `fn slice_contains_member(set: &[FastStr], member: &str) -> bool` -/
def slice_contains_member : List String → String → Bool
  | [], _ => false
  | m :: rest, member => if m = member then true else slice_contains_member rest member

/-- Models `.unwrap()` on the circle lookup result; at every state appearing in
the theorems the lookup succeeds, so the default is never exercised. -/
def unwrapStr (o : Option String) : String :=
  o.getD ("")

/-- `usize::MAX + 1` on the assumed 64-bit target. -/
def usizeSize : Nat := 2 ^ 64

/-- The ring state (`pub struct Consistent`). -/
structure Consistent where
  circle : List (Nat × String)
  members : List String
  sorted_hashes : List Nat
  number_of_replicas : Nat
  count : Nat
deriving DecidableEq

/-- `Consistent::new()` -/
def Consistent.new : Consistent :=
  { circle := [], members := [], sorted_hashes := [], number_of_replicas := 20, count := 0 }

/-- `Consistent::with_number_of_replicas` -/
def Consistent.with_number_of_replicas (c : Consistent) (number_of_replicas : Nat) : Consistent :=
  { c with number_of_replicas := number_of_replicas }

/-- The ascending ordering of the circle keys. -/
def sortedKeys (circle : List (Nat × String)) : List Nat :=
  List.insertionSort (· ≤ ·) (circle.map Prod.fst)

/-- `Consistent::update_sorted_hashes` (rebuild the index from the circle keys
and sort; the capacity-shrink branch has no observable effect). -/
def Consistent.update_sorted_hashes (c : Consistent) : Consistent :=
  { c with sorted_hashes := sortedKeys c.circle }

/-- `Consistent::add`, with the hash function `h` standing for `fxhash::hash32`. -/
def Consistent.add (h : String → Nat) (c : Consistent) (elt : String) : Consistent :=
  let circle1 := (List.range c.number_of_replicas).foldl
    (fun cir i => circleInsert cir (h (elt_key elt i)) elt) c.circle
  let c1 := { c with circle := circle1 }
  let c2 := { c1 with members := membersInsert c1.members elt }
  let c3 := c2.update_sorted_hashes
  { c3 with count := (c3.count + 1) % usizeSize }

/-- `Consistent::remove`; note the unconditional wrapping `fetch_sub(1)` on `count`. -/
def Consistent.remove (h : String → Nat) (c : Consistent) (elt : String) : Consistent :=
  let circle1 := (List.range c.number_of_replicas).foldl
    (fun cir i => circleRemove cir (h (elt_key elt i))) c.circle
  let c1 := { c with circle := circle1 }
  let c2 := { c1 with members := membersRemove c1.members elt }
  let c3 := c2.update_sorted_hashes
  { c3 with count := (c3.count + (usizeSize - 1)) % usizeSize }

/-- `Consistent::set`: remove current members absent from the input, then add
input elements not currently present. -/
def Consistent.set (h : String → Nat) (c : Consistent) (elts : List String) : Consistent :=
  let keys := c.members.filter (fun member => !(elts.any (fun elt => member == elt)))
  let c1 := keys.foldl (fun c key => c.remove h key) c
  elts.foldl (fun c v => if v ∈ c.members then c else c.add h v) c1

/-- `Consistent::members()` (a snapshot copy of the member set). -/
def Consistent.membersList (c : Consistent) : List String :=
  c.members

/-- `Consistent::search`: `partition_point(|x| *x <= key)` on the sorted index,
wrapping to index 0 when the result is out of bounds. -/
def Consistent.search (c : Consistent) (key : Nat) : Nat :=
  let sorted_hashes := c.sorted_hashes
  let i := (sorted_hashes.takeWhile (fun x => x ≤ key)).length
  if sorted_hashes.length ≤ i then 0 else i

/-- `Consistent::get` -/
def Consistent.get (h : String → Nat) (c : Consistent) (name : String) : Except Error String :=
  if c.circle.isEmpty then .error .emptyCircle
  else
    let key := h name
    let i := c.search key
    .ok (unwrapStr (circleGet c.circle (c.sorted_hashes.getD i 0)))

/-- The `while j != i` loop of `Consistent::get_two`, fuel-indexed.  One unit of
fuel is one loop iteration; `none` means the loop is still running.  Note the
faithful quirk: the wrap `j = 0` happens after the `j != i` test, so the test
never sees the wrapped value inside the same iteration. -/
def getTwoLoop (circle : List (Nat × String)) (sorted : List Nat) (a : String) (i : Nat) :
    Nat → Nat → Option String
  | 0, _ => none
  | fuel + 1, j =>
    if j = i then some ("")
    else
      let j1 := if sorted.length ≤ j then 0 else j
      let v := unwrapStr (circleGet circle (sorted.getD j1 0))
      if ¬a = v then some v
      else getTwoLoop circle sorted a i fuel (j1 + 1)

/-- `Consistent::get_two` -/
def Consistent.get_two (h : String → Nat) (c : Consistent) (name : String) (fuel : Nat) :
    Option (Except Error (String × String)) :=
  if c.circle.isEmpty then some (.error .emptyCircle)
  else
    let key := h name
    let i := c.search key
    let a := unwrapStr (circleGet c.circle (c.sorted_hashes.getD i 0))
    if c.count = 1 then some (.ok (a, ""))
    else
      match getTwoLoop c.circle c.sorted_hashes a i fuel (i + 1) with
      | none => none
      | some b => some (.ok (a, b))

/-- The `while j != i` loop of `Consistent::get_n`, fuel-indexed, carrying the
result vector `res`. -/
def getNLoop (circle : List (Nat × String)) (sorted : List Nat) (n i : Nat) :
    Nat → Nat → List String → Option (List String)
  | 0, _, _ => none
  | fuel + 1, j, res =>
    if j = i then some res
    else
      let j1 := if sorted.length ≤ j then 0 else j
      let v := unwrapStr (circleGet circle (sorted.getD j1 0))
      let res1 := if slice_contains_member res v then res else res ++ [v]
      if res1.length = n then some res1
      else getNLoop circle sorted n i fuel (j1 + 1) res1

/-- `Consistent::get_n` -/
def Consistent.get_n (h : String → Nat) (c : Consistent) (name : String) (n : Nat) (fuel : Nat) :
    Option (Except Error (List String)) :=
  if c.circle.isEmpty then some (.error .emptyCircle)
  else
    let count := c.count
    let n1 := if count < n then count else n
    let key := h name
    let i := c.search key
    let res := [unwrapStr (circleGet c.circle (c.sorted_hashes.getD i 0))]
    if n1 = 1 then some (.ok res)
    else
      match getNLoop c.circle c.sorted_hashes n1 i fuel (i + 1) res with
      | none => none
      | some r => some (.ok r)

/-! ### Mutation sequences -/

/-- One call to a mutating operation. -/
inductive Mut where
  | add (s : String)
  | remove (s : String)
  | set (l : List String)
deriving DecidableEq

/-- Run one mutation against a ring state. -/
def applyMut (h : String → Nat) (c : Consistent) : Mut → Consistent
  | .add s => c.add h s
  | .remove s => c.remove h s
  | .set l => c.set h l

/-- Run a sequence of mutations left to right. -/
def applyMuts (h : String → Nat) (c : Consistent) (muts : List Mut) : Consistent :=
  muts.foldl (applyMut h) c

/-- A sequence is proper when every `add` targets an absent member and every
`remove` targets a present one (`set` checks presence internally). -/
def properMuts (h : String → Nat) (c : Consistent) : List Mut → Bool
  | [] => true
  | m :: rest =>
    (match m with
     | .add s => !(c.members.contains s)
     | .remove s => c.members.contains s
     | .set _ => true) && properMuts h (applyMut h c m) rest

/-- Contribution of one mutation to the worst-case growth of the member set. -/
def mutWeight : Mut → Nat
  | .add _ => 1
  | .remove _ => 1
  | .set l => l.length

def mutsWeight (muts : List Mut) : Nat :=
  (muts.map mutWeight).sum

/-- All member names a mutation sequence can mention. -/
def touchedNames : List Mut → List String
  | [] => []
  | .add s :: rest => s :: touchedNames rest
  | .remove s :: rest => s :: touchedNames rest
  | .set l :: rest => l ++ touchedNames rest

/-- The virtual-node hashes of the given names are pairwise collision-free:
distinct (name, replica index) pairs get distinct hash values. -/
def VInj (h : String → Nat) (R : Nat) (names : List String) : Prop :=
  ∀ s ∈ names, ∀ i ∈ List.range R, ∀ s2 ∈ names, ∀ i2 ∈ List.range R,
    h (elt_key s i) = h (elt_key s2 i2) → s = s2 ∧ i = i2

/-! ### Invariant predicates -/

/-- Characterization of a well-formed ring state: the member list and key list
are duplicate-free, every circle entry belongs to a present member at one of
its replica positions, every replica position of every present member resolves
to that member, and the sorted index is the sorted key list. -/
structure CChar (h : String → Nat) (c : Consistent) : Prop where
  members_nodup : c.members.Nodup
  keys_nodup : (c.circle.map Prod.fst).Nodup
  entries : ∀ kv ∈ c.circle, kv.2 ∈ c.members ∧
      ∃ i ∈ List.range c.number_of_replicas, kv.1 = h (elt_key kv.2 i)
  complete : ∀ v ∈ c.members, ∀ i ∈ List.range c.number_of_replicas,
      circleGet c.circle (h (elt_key v i)) = some v
  sorted_eq : c.sorted_hashes = sortedKeys c.circle

/-- A well-formed state whose counter agrees with the member count (this is
what any collision-free proper mutation sequence produces). -/
def GoodRing (h : String → Nat) (c : Consistent) : Prop :=
  CChar h c ∧ c.count = c.members.length

/-! ### Specification-side selection and walk descriptions -/

def minNat? : List Nat → Option Nat
  | [] => none
  | x :: xs =>
    match minNat? xs with
    | none => some x
    | some m => some (min x m)

/-- Selection as the code realizes it (spec §4 tie-break wording): smallest
hash strictly greater than the key hash, wrapping to the smallest hash. -/
def specOwnerHash (hashes : List Nat) (k : Nat) : Option Nat :=
  match minNat? (hashes.filter (fun x => k < x)) with
  | some m => some m
  | none => minNat? hashes

/-- Selection as the claim words it: smallest hash greater than or equal to the
key hash, wrapping to the smallest hash when the key hash exceeds all. -/
def specOwnerHashGE (hashes : List Nat) (k : Nat) : Option Nat :=
  match minNat? (hashes.filter (fun x => k ≤ x)) with
  | some m => some m
  | none => minNat? hashes

/-- Member name stored at position `idx` of the sorted index. -/
def valueAt (c : Consistent) (idx : Nat) : String :=
  unwrapStr (circleGet c.circle (c.sorted_hashes.getD idx 0))

/-- The member `get` resolves the key to. -/
def primaryOwner (h : String → Nat) (c : Consistent) (name : String) : String :=
  valueAt c (c.search (h name))

/-- The index positions a full clockwise walk starting after `i` examines:
`i+1, i+2, …` modulo `len`, every position except `i` itself. -/
def walkOrder (len i : Nat) : List Nat :=
  (List.range (len - 1)).map (fun t => (i + 1 + t) % len)

/-- First member name different from `a` along the given positions. -/
def firstDiff (c : Consistent) (a : String) : List Nat → Option String
  | [] => none
  | e :: rest =>
    let v := valueAt c e
    if v = a then firstDiff c a rest else some v

/-- One collection step of the `get_n` walk at position `e`. -/
def collectStep (c : Consistent) (res : List String) (e : Nat) : List String :=
  let v := valueAt c e
  if slice_contains_member res v then res else res ++ [v]

/-- Collect along the given positions, stopping as soon as `n` names are held. -/
def collectN (c : Consistent) (n : Nat) : List Nat → List String → Option (List String)
  | [], _ => none
  | e :: rest, res =>
    let res1 := collectStep c res e
    if res1.length = n then some res1 else collectN c n rest res1

/-- Collect along all given positions without a stopping target. -/
def walkFold (c : Consistent) (res : List String) (es : List Nat) : List String :=
  es.foldl (collectStep c) res

/-! ### State-threaded query operations (for the frame property)

The Rust queries take `&self` and touch the shared state only through read
operations (`DashMap::get`, `is_empty`, `RwLock::read`, `Atomic::load`,
`DashSet::iter`).  The following versions thread the state through each such
access explicitly, mirroring the statement order of the source. -/

def circleIsEmptyS (c : Consistent) : Consistent × Bool := (c, c.circle.isEmpty)

def sortedReadS (c : Consistent) : Consistent × List Nat := (c, c.sorted_hashes)

def circleGetS (c : Consistent) (k : Nat) : Consistent × Option String :=
  (c, circleGet c.circle k)

def countLoadS (c : Consistent) : Consistent × Nat := (c, c.count)

def membersIterS (c : Consistent) : Consistent × List String := (c, c.members)

def searchS (c : Consistent) (key : Nat) : Consistent × Nat :=
  let p := sortedReadS c
  let i := (p.2.takeWhile (fun x => x ≤ key)).length
  (p.1, if p.2.length ≤ i then 0 else i)

def getS (h : String → Nat) (c : Consistent) (name : String) :
    Consistent × Except Error String :=
  let p0 := circleIsEmptyS c
  if p0.2 then (p0.1, .error .emptyCircle)
  else
    let key := h name
    let p1 := searchS p0.1 key
    let p2 := sortedReadS p1.1
    let p3 := circleGetS p2.1 (p2.2.getD p1.2 0)
    (p3.1, .ok (unwrapStr p3.2))

def getTwoLoopS (a : String) (i : Nat) : Nat → Nat → Consistent → Consistent × Option String
  | 0, _, c => (c, none)
  | fuel + 1, j, c =>
    if j = i then (c, some (""))
    else
      let p1 := sortedReadS c
      let j1 := if p1.2.length ≤ j then 0 else j
      let p2 := circleGetS p1.1 (p1.2.getD j1 0)
      let v := unwrapStr p2.2
      if ¬a = v then (p2.1, some v)
      else getTwoLoopS a i fuel (j1 + 1) p2.1

def getTwoS (h : String → Nat) (c : Consistent) (name : String) (fuel : Nat) :
    Consistent × Option (Except Error (String × String)) :=
  let p0 := circleIsEmptyS c
  if p0.2 then (p0.1, some (.error .emptyCircle))
  else
    let key := h name
    let p1 := searchS p0.1 key
    let p2 := sortedReadS p1.1
    let p3 := circleGetS p2.1 (p2.2.getD p1.2 0)
    let a := unwrapStr p3.2
    let p4 := countLoadS p3.1
    if p4.2 = 1 then (p4.1, some (.ok (a, "")))
    else
      let p5 := getTwoLoopS a p1.2 fuel (p1.2 + 1) p4.1
      match p5.2 with
      | none => (p5.1, none)
      | some b => (p5.1, some (.ok (a, b)))

def getNLoopS (n i : Nat) :
    Nat → Nat → List String → Consistent → Consistent × Option (List String)
  | 0, _, _, c => (c, none)
  | fuel + 1, j, res, c =>
    if j = i then (c, some res)
    else
      let p1 := sortedReadS c
      let j1 := if p1.2.length ≤ j then 0 else j
      let p2 := circleGetS p1.1 (p1.2.getD j1 0)
      let v := unwrapStr p2.2
      let res1 := if slice_contains_member res v then res else res ++ [v]
      if res1.length = n then (p2.1, some res1)
      else getNLoopS n i fuel (j1 + 1) res1 p2.1

def getNS (h : String → Nat) (c : Consistent) (name : String) (n : Nat) (fuel : Nat) :
    Consistent × Option (Except Error (List String)) :=
  let p0 := circleIsEmptyS c
  if p0.2 then (p0.1, some (.error .emptyCircle))
  else
    let pc := countLoadS p0.1
    let n1 := if pc.2 < n then pc.2 else n
    let key := h name
    let p1 := searchS pc.1 key
    let p2 := sortedReadS p1.1
    let p3 := circleGetS p2.1 (p2.2.getD p1.2 0)
    let res := [unwrapStr p3.2]
    if n1 = 1 then (p3.1, some (.ok res))
    else
      let p5 := getNLoopS n1 p1.2 fuel (p1.2 + 1) res p3.1
      match p5.2 with
      | none => (p5.1, none)
      | some r => (p5.1, some (.ok r))

def membersListS (c : Consistent) : Consistent × List String :=
  let p := membersIterS c
  (p.1, p.2)

/-! ### Concrete instances for witnesses and counterexamples -/

/-- A fresh ring with the given replica count. -/
def ringNew (R : Nat) : Consistent :=
  Consistent.new.with_number_of_replicas R

/-- Executable hash used in witnesses (injective on the short strings involved). -/
def hW (s : String) : Nat :=
  s.data.foldl (fun a ch => a * 256 + ch.toNat) 1

/-- `search` as a function of the sorted index alone. -/
def searchIdx (l : List Nat) (k : Nat) : Nat :=
  let i := (l.takeWhile (fun x => x ≤ k)).length
  if l.length ≤ i then 0 else i

/-- The hash value `search` selects. -/
def selHash (l : List Nat) (k : Nat) : Nat :=
  l.getD (searchIdx l k) 0

/-- Hash for the C1 counterexample: with one replica, member names map to 10
and 20, and the looked-up key hashes exactly onto the virtual node at 10. -/
def hA (s : String) : Nat :=
  if s = elt_key ("a") 0 then 10
  else if s = elt_key ("b") 0 then 20
  else 10

/-- Two-member ring (replica count 1) whose virtual nodes sit at 10 (`a`) and
20 (`b`): the key of interest hashes to 10, exactly onto `a`'s node. -/
def cA : Consistent := ((ringNew 1).add hA ("a")).add hA ("b")

/-- Hash placing `a` at 10, `b` at 20, every other string (the key) at 15. -/
def hC (s : String) : Nat :=
  if s = elt_key ("a") 0 then 10
  else if s = elt_key ("b") 0 then 20
  else 15

/-- Two-member ring over `hC`; the key hashes strictly between the two nodes. -/
def cC : Consistent := ((ringNew 1).add hC ("a")).add hC ("b")

/-- Hash placing `a`'s single virtual node at 5 and every other string at 9
(so a looked-up key hashes above every node and `search` wraps to index 0). -/
def hS (s : String) : Nat :=
  if s = elt_key ("a") 0 then 5 else 9

/-- One-member ring over `hS`. -/
def cS : Consistent := (ringNew 1).add hS ("a")

/-- The same ring after a second `add` of the same member: one distinct member
but `count = 2`. -/
def cDup : Consistent := cS.add hS ("a")

/-- Injective witness hash for up to four members with one replica each. -/
def hT (s : String) : Nat :=
  if s = elt_key ("a") 0 then 10
  else if s = elt_key ("b") 0 then 20
  else if s = elt_key ("c") 0 then 30
  else if s = elt_key ("d") 0 then 40
  else 15

/-- Two-member witness ring over `hT`. -/
def cT : Consistent := ((ringNew 1).add hT ("a")).add hT ("b")

/-! ### Lemmas about the circle primitives -/

theorem circleGet_insert (c : List (Nat × String)) (k : Nat) (v : String) (k2 : Nat) :
    circleGet (circleInsert c k v) k2 = if k2 = k then some v else circleGet c k2 := by
  induction c with
  | nil =>
    by_cases hk : k2 = k
    · simp [circleInsert, circleGet, hk]
    · have hk' : ¬k = k2 := fun he => hk he.symm
      simp [circleInsert, circleGet, hk, hk']
  | cons kv rest ih =>
    by_cases h1 : kv.1 = k
    · by_cases hk : k2 = k
      · simp [circleInsert, circleGet, h1, hk]
      · have hk' : ¬k = k2 := fun he => hk he.symm
        have h2 : ¬kv.1 = k2 := h1 ▸ hk'
        simp [circleInsert, circleGet, h1, hk, hk', h2]
    · by_cases hk : kv.1 = k2
      · have hkk : ¬k2 = k := fun he => h1 (hk.trans he)
        simp [circleInsert, circleGet, h1, hk, hkk]
      · simp [circleInsert, circleGet, h1, hk, ih]

theorem keys_circleInsert (c : List (Nat × String)) (k : Nat) (v : String) :
    (circleInsert c k v).map Prod.fst =
      if k ∈ c.map Prod.fst then c.map Prod.fst else c.map Prod.fst ++ [k] := by
  induction c with
  | nil => simp [circleInsert]
  | cons kv rest ih =>
    by_cases h1 : kv.1 = k
    · simp [circleInsert, h1]
    · have h1' : ¬k = kv.1 := fun he => h1 he.symm
      by_cases hm : k ∈ rest.map Prod.fst
      · simp [circleInsert, h1, h1', hm, ih]
      · simp [circleInsert, h1, h1', hm, ih]

theorem keys_nodup_circleInsert (c : List (Nat × String)) (k : Nat) (v : String)
    (hc : (c.map Prod.fst).Nodup) : ((circleInsert c k v).map Prod.fst).Nodup := by
  rw [keys_circleInsert]
  by_cases hm : k ∈ c.map Prod.fst
  · simpa [hm] using hc
  · simp [hm, List.nodup_append, hc]

theorem circleGet_remove (c : List (Nat × String)) (k : Nat) (k2 : Nat) :
    circleGet (circleRemove c k) k2 = if k2 = k then none else circleGet c k2 := by
  induction c with
  | nil =>
    by_cases hk : k2 = k <;> simp [circleRemove, circleGet, hk]
  | cons kv rest ih =>
    by_cases h1 : kv.1 = k
    · by_cases hk : k2 = k
      · subst hk
        simp [circleRemove, circleGet, h1, ih]
      · have hk' : ¬k = k2 := fun he => hk he.symm
        have h2 : ¬kv.1 = k2 := fun he => hk ((he.symm.trans h1))
        simp [circleRemove, circleGet, h1, hk, hk', h2, ih]
    · by_cases hk : kv.1 = k2
      · have hkk : ¬k2 = k := fun he => h1 (hk.trans he)
        simp [circleRemove, circleGet, h1, hk, hkk]
      · simp [circleRemove, circleGet, h1, hk, ih]

theorem keys_circleRemove (c : List (Nat × String)) (k : Nat) :
    (circleRemove c k).map Prod.fst = (c.map Prod.fst).filter (fun x => !(x == k)) := by
  induction c with
  | nil => simp [circleRemove]
  | cons kv rest ih =>
    by_cases h1 : kv.1 = k <;> simp [circleRemove, h1, ih]

theorem keys_nodup_circleRemove (c : List (Nat × String)) (k : Nat)
    (hc : (c.map Prod.fst).Nodup) : ((circleRemove c k).map Prod.fst).Nodup := by
  rw [keys_circleRemove]
  exact hc.filter _

theorem circleGet_isSome_iff (c : List (Nat × String)) (k : Nat) :
    (circleGet c k).isSome ↔ k ∈ c.map Prod.fst := by
  induction c with
  | nil => simp [circleGet]
  | cons kv rest ih =>
    by_cases h1 : kv.1 = k
    · simp [circleGet, h1]
    · have h1' : ¬k = kv.1 := fun he => h1 he.symm
      simp [circleGet, h1, h1', ih]

theorem circleGet_mem (c : List (Nat × String)) (k : Nat) (v : String)
    (hget : circleGet c k = some v) : (k, v) ∈ c := by
  induction c with
  | nil => simp [circleGet] at hget
  | cons kv rest ih =>
    by_cases h1 : kv.1 = k
    · simp [circleGet, h1] at hget
      have hkv : kv = (k, v) := by
        cases kv
        simp_all
      rw [← hkv]
      exact List.mem_cons_self kv rest
    · simp [circleGet, h1] at hget
      exact List.mem_cons_of_mem kv (ih hget)

theorem mem_circleGet (c : List (Nat × String)) (k : Nat) (v : String)
    (hnd : (c.map Prod.fst).Nodup) (hmem : (k, v) ∈ c) : circleGet c k = some v := by
  induction c with
  | nil => simp at hmem
  | cons kv rest ih =>
    rcases List.mem_cons.mp hmem with heq | htail
    · subst heq
      simp [circleGet]
    · have h1 : ¬kv.1 = k := by
        intro he
        have : kv.1 ∈ rest.map Prod.fst := he ▸ List.mem_map_of_mem Prod.fst htail
        exact (List.nodup_cons.mp (by simpa using hnd)).1 this
      simp [circleGet, h1]
      exact ih (List.nodup_cons.mp (by simpa using hnd)).2 htail

/-! ### Lemmas about the replica-key folds used by add and remove -/

theorem circleGet_addFold (h : String → Nat) (elt : String) (is : List Nat)
    (c : List (Nat × String)) (k : Nat) :
    circleGet (is.foldl (fun cir i => circleInsert cir (h (elt_key elt i)) elt) c) k =
      if k ∈ is.map (fun i => h (elt_key elt i)) then some elt else circleGet c k := by
  induction is generalizing c with
  | nil => simp
  | cons i rest ih =>
    simp only [List.foldl_cons, List.map_cons]
    rw [ih]
    by_cases hm : k ∈ rest.map (fun i => h (elt_key elt i))
    · simp [hm]
    · by_cases hk : k = h (elt_key elt i) <;> simp [hm, hk, circleGet_insert]

theorem keys_nodup_addFold (h : String → Nat) (elt : String) (is : List Nat)
    (c : List (Nat × String)) (hc : (c.map Prod.fst).Nodup) :
    ((is.foldl (fun cir i => circleInsert cir (h (elt_key elt i)) elt) c).map Prod.fst).Nodup := by
  induction is generalizing c with
  | nil => simpa
  | cons i rest ih => exact ih _ (keys_nodup_circleInsert _ _ _ hc)

theorem circleGet_removeFold (h : String → Nat) (elt : String) (is : List Nat)
    (c : List (Nat × String)) (k : Nat) :
    circleGet (is.foldl (fun cir i => circleRemove cir (h (elt_key elt i))) c) k =
      if k ∈ is.map (fun i => h (elt_key elt i)) then none else circleGet c k := by
  induction is generalizing c with
  | nil => simp
  | cons i rest ih =>
    simp only [List.foldl_cons, List.map_cons]
    rw [ih]
    by_cases hm : k ∈ rest.map (fun i => h (elt_key elt i))
    · simp [hm]
    · by_cases hk : k = h (elt_key elt i) <;> simp [hm, hk, circleGet_remove]

theorem keys_nodup_removeFold (h : String → Nat) (elt : String) (is : List Nat)
    (c : List (Nat × String)) (hc : (c.map Prod.fst).Nodup) :
    ((is.foldl (fun cir i => circleRemove cir (h (elt_key elt i))) c).map Prod.fst).Nodup := by
  induction is generalizing c with
  | nil => simpa
  | cons i rest ih => exact ih _ (keys_nodup_circleRemove _ _ hc)

/-! ### Projections of add, remove, set -/

theorem add_circle (h : String → Nat) (c : Consistent) (elt : String) :
    (c.add h elt).circle = (List.range c.number_of_replicas).foldl
      (fun cir i => circleInsert cir (h (elt_key elt i)) elt) c.circle := rfl

theorem add_members (h : String → Nat) (c : Consistent) (elt : String) :
    (c.add h elt).members = membersInsert c.members elt := rfl

theorem add_sorted (h : String → Nat) (c : Consistent) (elt : String) :
    (c.add h elt).sorted_hashes = sortedKeys (c.add h elt).circle := rfl

theorem add_replicas (h : String → Nat) (c : Consistent) (elt : String) :
    (c.add h elt).number_of_replicas = c.number_of_replicas := rfl

theorem add_count (h : String → Nat) (c : Consistent) (elt : String) :
    (c.add h elt).count = (c.count + 1) % usizeSize := rfl

theorem remove_circle (h : String → Nat) (c : Consistent) (elt : String) :
    (c.remove h elt).circle = (List.range c.number_of_replicas).foldl
      (fun cir i => circleRemove cir (h (elt_key elt i))) c.circle := rfl

theorem remove_members (h : String → Nat) (c : Consistent) (elt : String) :
    (c.remove h elt).members = membersRemove c.members elt := rfl

theorem remove_sorted (h : String → Nat) (c : Consistent) (elt : String) :
    (c.remove h elt).sorted_hashes = sortedKeys (c.remove h elt).circle := rfl

theorem remove_replicas (h : String → Nat) (c : Consistent) (elt : String) :
    (c.remove h elt).number_of_replicas = c.number_of_replicas := rfl

theorem remove_count (h : String → Nat) (c : Consistent) (elt : String) :
    (c.remove h elt).count = (c.count + (usizeSize - 1)) % usizeSize := rfl

theorem set_eq (h : String → Nat) (c : Consistent) (elts : List String) :
    c.set h elts =
      elts.foldl (fun c v => if v ∈ c.members then c else c.add h v)
        ((c.members.filter (fun member => !(elts.any (fun elt => member == elt)))).foldl
          (fun c key => c.remove h key) c) := rfl

/-! ### Sorted key list -/

theorem sortedKeys_sorted (circle : List (Nat × String)) :
    (sortedKeys circle).Sorted (· ≤ ·) :=
  List.sorted_insertionSort _ _

theorem sortedKeys_perm (circle : List (Nat × String)) :
    (sortedKeys circle).Perm (circle.map Prod.fst) :=
  List.perm_insertionSort _ _

theorem mem_sortedKeys (circle : List (Nat × String)) (x : Nat) :
    x ∈ sortedKeys circle ↔ x ∈ circle.map Prod.fst :=
  (sortedKeys_perm circle).mem_iff

theorem sortedKeys_length (circle : List (Nat × String)) :
    (sortedKeys circle).length = circle.length := by
  rw [(sortedKeys_perm circle).length_eq, List.length_map]

theorem sortedKeys_nodup (circle : List (Nat × String))
    (h : (circle.map Prod.fst).Nodup) : (sortedKeys circle).Nodup :=
  ((sortedKeys_perm circle).nodup_iff).mpr h

theorem sortedKeys_eq_nil_iff (circle : List (Nat × String)) :
    sortedKeys circle = [] ↔ circle = [] := by
  constructor
  · intro hnil
    have := sortedKeys_length circle
    rw [hnil] at this
    exact List.length_eq_zero.mp this.symm
  · intro hnil
    subst hnil
    rfl

/-! ### Minimum of a list -/

theorem minNat?_eq_none_iff (l : List Nat) : minNat? l = none ↔ l = [] := by
  cases l with
  | nil => simp [minNat?]
  | cons x xs =>
    simp only [minNat?]
    cases minNat? xs <;> simp

theorem minNat?_isSome (l : List Nat) (h : l ≠ []) : ∃ m, minNat? l = some m := by
  cases hm : minNat? l with
  | none => exact absurd ((minNat?_eq_none_iff l).mp hm) h
  | some m => exact ⟨m, rfl⟩

theorem minNat?_mem (l : List Nat) (m : Nat) (h : minNat? l = some m) : m ∈ l := by
  induction l generalizing m with
  | nil => simp [minNat?] at h
  | cons x xs ih =>
    simp only [minNat?] at h
    cases hx : minNat? xs with
    | none =>
      rw [hx] at h
      simp at h
      simp [h]
    | some m2 =>
      rw [hx] at h
      simp at h
      subst h
      by_cases hle : x ≤ m2
      · simp [Nat.min_def, hle]
      · simp [Nat.min_def, hle, ih m2 hx]

theorem minNat?_le (l : List Nat) (m : Nat) (h : minNat? l = some m) :
    ∀ x ∈ l, m ≤ x := by
  induction l generalizing m with
  | nil => simp
  | cons x xs ih =>
    simp only [minNat?] at h
    cases hx : minNat? xs with
    | none =>
      rw [hx] at h
      simp at h
      subst h
      have : xs = [] := (minNat?_eq_none_iff xs).mp hx
      subst this
      simp
    | some m2 =>
      rw [hx] at h
      simp at h
      subst h
      intro y hy
      rcases List.mem_cons.mp hy with rfl | hys
      · exact Nat.min_le_left _ _
      · exact Nat.le_trans (Nat.min_le_right _ _) (ih m2 hx y hys)

theorem minNat?_eq_some (l : List Nat) (a : Nat) (hmem : a ∈ l)
    (hle : ∀ x ∈ l, a ≤ x) : minNat? l = some a := by
  obtain ⟨m, hm⟩ := minNat?_isSome l (List.ne_nil_of_mem hmem)
  have h1 := minNat?_mem l m hm
  have h2 := minNat?_le l m hm
  rw [hm, Nat.le_antisymm (h2 a hmem) (hle m h1)]

/-! ### The binary-search selection -/

theorem search_eq_searchIdx (c : Consistent) (key : Nat) :
    c.search key = searchIdx c.sorted_hashes key := rfl

theorem takeWhile_all (l : List Nat) (k : Nat) (h : ∀ x ∈ l, x ≤ k) :
    l.takeWhile (fun x => x ≤ k) = l := by
  induction l with
  | nil => rfl
  | cons x xs ih =>
    have hx : x ≤ k := h x (List.mem_cons_self _ _)
    simp only [List.takeWhile_cons]
    simp [hx, ih (fun y hy => h y (List.mem_cons_of_mem _ hy))]

theorem getD_takeWhile_length (l : List Nat) (p : Nat → Bool) (v : Nat) :
    l.getD (l.takeWhile p).length v = (l.dropWhile p).getD 0 v := by
  induction l with
  | nil => simp
  | cons x xs ih =>
    by_cases hp : p x
    · simpa [List.takeWhile_cons, List.dropWhile_cons, hp] using ih
    · simp [List.takeWhile_cons, List.dropWhile_cons, hp]

theorem dropWhile_head_gt (l : List Nat) (k : Nat)
    (h : l.dropWhile (fun x => x ≤ k) ≠ []) :
    k < (l.dropWhile (fun x => x ≤ k)).getD 0 0 := by
  induction l with
  | nil => simp at h
  | cons y ys ih =>
    by_cases hy : y ≤ k
    · have h2 : ys.dropWhile (fun x => x ≤ k) ≠ [] := by
        simpa [List.dropWhile_cons, hy] using h
      simpa [List.dropWhile_cons, hy] using ih h2
    · simp [List.dropWhile_cons, hy]
      omega

theorem searchIdx_lt_length (l : List Nat) (k : Nat) (h : l ≠ []) :
    searchIdx l k < l.length := by
  unfold searchIdx
  by_cases hle : l.length ≤ (l.takeWhile (fun x => x ≤ k)).length
  · simp only [hle, if_true]
    exact List.length_pos.mpr h
  · simp only [hle, if_false]
    omega

theorem selHash_mem (l : List Nat) (k : Nat) (h : l ≠ []) : selHash l k ∈ l := by
  have hlt := searchIdx_lt_length l k h
  unfold selHash
  rw [List.getD_eq_getElem l 0 hlt]
  exact List.getElem_mem hlt

theorem searchIdx_eq_zero_of_all_le (l : List Nat) (k : Nat) (h : ∀ x ∈ l, x ≤ k) :
    searchIdx l k = 0 := by
  unfold searchIdx
  rw [takeWhile_all l k h]
  simp

theorem sorted_head_le (l : List Nat) (hs : l.Sorted (· ≤ ·)) :
    ∀ x ∈ l, l.getD 0 0 ≤ x := by
  intro x hx
  cases l with
  | nil => simp at hx
  | cons y ys =>
    rcases List.mem_cons.mp hx with rfl | hmem
    · simp
    · simpa using (List.sorted_cons.mp hs).1 x hmem

theorem selHash_spec_gt (l : List Nat) (k : Nat) (hs : l.Sorted (· ≤ ·))
    (x : Nat) (hx : x ∈ l) (hk : k < x) :
    k < selHash l k ∧ ∀ y ∈ l, k < y → selHash l k ≤ y := by
  have htd := List.takeWhile_append_dropWhile (p := fun x : Nat => x ≤ k) (l := l)
  have hmemd : ∀ y ∈ l, k < y → y ∈ l.dropWhile (fun x => x ≤ k) := by
    intro y hy hky
    have hy2 : y ∈ l.takeWhile (fun x : Nat => x ≤ k) ++ l.dropWhile (fun x : Nat => x ≤ k) := by
      rw [htd]
      exact hy
    rcases List.mem_append.mp hy2 with ht | hd
    · have := List.mem_takeWhile_imp ht
      simp at this
      omega
    · exact hd
  have hxd := hmemd x hx hk
  have hdne : l.dropWhile (fun x : Nat => x ≤ k) ≠ [] := List.ne_nil_of_mem hxd
  have hsel : selHash l k = (l.dropWhile (fun x : Nat => x ≤ k)).getD 0 0 := by
    have hlen := congrArg List.length htd
    simp only [List.length_append] at hlen
    have hdpos : 0 < (l.dropWhile (fun x : Nat => x ≤ k)).length := List.length_pos.mpr hdne
    have hnle : ¬l.length ≤ (l.takeWhile (fun x : Nat => x ≤ k)).length := by omega
    unfold selHash searchIdx
    simp only [hnle, if_false]
    exact getD_takeWhile_length l _ 0
  constructor
  · rw [hsel]
    exact dropWhile_head_gt l k hdne
  · intro y hy hky
    rw [hsel]
    have hsd : (l.dropWhile (fun x : Nat => x ≤ k)).Sorted (· ≤ ·) :=
      List.Pairwise.sublist (List.dropWhile_sublist _) hs
    exact sorted_head_le _ hsd y (hmemd y hy hky)

theorem selHash_wrap (l : List Nat) (k : Nat) (h : ∀ x ∈ l, x ≤ k) :
    selHash l k = l.getD 0 0 := by
  unfold selHash
  rw [searchIdx_eq_zero_of_all_le l k h]

theorem specOwnerHash_eq_selHash (l : List Nat) (k : Nat)
    (hs : l.Sorted (· ≤ ·)) (hne : l ≠ []) :
    specOwnerHash l k = some (selHash l k) := by
  by_cases hex : ∃ x ∈ l, k < x
  · obtain ⟨x, hx, hk⟩ := hex
    obtain ⟨hgt, hmin⟩ := selHash_spec_gt l k hs x hx hk
    have hm : minNat? (l.filter (fun x => k < x)) = some (selHash l k) := by
      apply minNat?_eq_some
      · rw [List.mem_filter]
        exact ⟨selHash_mem l k hne, by simpa using hgt⟩
      · intro y hy
        rw [List.mem_filter] at hy
        exact hmin y hy.1 (by simpa using hy.2)
    unfold specOwnerHash
    rw [hm]
  · push_neg at hex
    have hfil : l.filter (fun x => k < x) = [] := by
      rw [List.filter_eq_nil_iff]
      intro a ha
      simpa using Nat.not_lt.mpr (hex a ha)
    unfold specOwnerHash
    rw [hfil, selHash_wrap l k hex]
    simp only [minNat?]
    apply minNat?_eq_some
    · cases l with
      | nil => exact absurd rfl hne
      | cons y ys => simp
    · exact sorted_head_le l hs

/-! ### Basic facts about get -/

theorem sorted_ne_nil (c : Consistent) (heq : c.sorted_hashes = sortedKeys c.circle)
    (hne : c.circle ≠ []) : c.sorted_hashes ≠ [] := by
  rw [heq]
  intro hcontra
  exact hne ((sortedKeys_eq_nil_iff c.circle).mp hcontra)

theorem get_eq_selHash (h : String → Nat) (c : Consistent) (name : String)
    (hne : c.circle ≠ []) :
    c.get h name = .ok (unwrapStr (circleGet c.circle (selHash c.sorted_hashes (h name)))) := by
  have hemp : c.circle.isEmpty = false := by
    cases hc : c.circle with
    | nil => exact absurd hc hne
    | cons kv rest => rfl
  simp [Consistent.get, hemp, Consistent.search, selHash, searchIdx]

theorem get_of_empty (h : String → Nat) (c : Consistent) (name : String)
    (hc : c.circle = []) : c.get h name = .error .emptyCircle := by
  simp [Consistent.get, hc]

theorem mem_sorted_iff_keys (c : Consistent)
    (heq : c.sorted_hashes = sortedKeys c.circle) (k : Nat) :
    k ∈ c.sorted_hashes ↔ k ∈ c.circle.map Prod.fst := by
  rw [heq]
  exact mem_sortedKeys c.circle k

/-- C1 (amended): on a ring whose sorted index is the sorted key list of a
nonempty circle, `get(key)` returns the member `circle` maps the selected
position to, where the selected position holds the smallest virtual-node hash
strictly greater than the key's hash, wrapping to the first (smallest) entry
when the key's hash is greater than or equal to every virtual-node hash. -/
theorem C1_get_selects_min_above (h : String → Nat) (c : Consistent) (name : String)
    (hsorted : c.sorted_hashes = sortedKeys c.circle) (hne : c.circle ≠ []) :
    ∃ hstar m, specOwnerHash c.sorted_hashes (h name) = some hstar ∧
      circleGet c.circle hstar = some m ∧ c.get h name = .ok m := by
  have hs : c.sorted_hashes.Sorted (· ≤ ·) := hsorted ▸ sortedKeys_sorted c.circle
  have hsne : c.sorted_hashes ≠ [] := sorted_ne_nil c hsorted hne
  have hsel := specOwnerHash_eq_selHash c.sorted_hashes (h name) hs hsne
  have hmem : selHash c.sorted_hashes (h name) ∈ c.circle.map Prod.fst :=
    (mem_sorted_iff_keys c hsorted _).mp (selHash_mem c.sorted_hashes (h name) hsne)
  obtain ⟨m, hm⟩ := Option.isSome_iff_exists.mp ((circleGet_isSome_iff _ _).mpr hmem)
  refine ⟨selHash c.sorted_hashes (h name), m, hsel, hm, ?_⟩
  rw [get_eq_selHash h c name hne, hm]
  rfl

/-- Witness for C1 at a concrete two-member ring with one replica each. -/
theorem C1_witness :
    ∃ hstar m, specOwnerHash cC.sorted_hashes (hC ("k")) = some hstar ∧
      circleGet cC.circle hstar = some m ∧ cC.get hC ("k") = .ok m :=
  C1_get_selects_min_above hC cC ("k") (by decide) (by decide)

/-- C1 counterexample: the key hashes exactly onto the virtual node at 10 owned
by member a; the claim's greater-or-equal selection picks hash 10 (member a),
but `get` returns member b, because the code searches strictly above the key. -/
theorem C1_counterexample :
    specOwnerHashGE cA.sorted_hashes (hA ("k")) = some 10 ∧
      circleGet cA.circle 10 = some ("a") ∧
      cA.get hA ("k") = .ok ("b") ∧ ("a" : String) ≠ ("b") := by
  decide

/-- C2: on any state whose sorted index matches its circle, for any key owned
by `x`, adding a member `m` not currently present leaves the owner equal to `x`
or moves it to `m`; it never moves to a different pre-existing member. -/
theorem C2_stable_under_add (h : String → Nat) (c : Consistent) (name m x : String)
    (hsorted : c.sorted_hashes = sortedKeys c.circle)
    (hm : m ∉ c.members)
    (hx : c.get h name = .ok x) :
    (c.add h m).get h name = .ok x ∨ (c.add h m).get h name = .ok m := by
  by_cases hc : c.circle = []
  · rw [get_of_empty h c name hc] at hx
    exact absurd hx (by simp)
  have hs : c.sorted_hashes.Sorted (· ≤ ·) := hsorted ▸ sortedKeys_sorted c.circle
  have hsne : c.sorted_hashes ≠ [] := sorted_ne_nil c hsorted hc
  have hgetx : circleGet c.circle (selHash c.sorted_hashes (h name)) = some x := by
    have hmem : selHash c.sorted_hashes (h name) ∈ c.circle.map Prod.fst :=
      (mem_sorted_iff_keys c hsorted _).mp (selHash_mem c.sorted_hashes (h name) hsne)
    obtain ⟨v, hv⟩ := Option.isSome_iff_exists.mp ((circleGet_isSome_iff _ _).mpr hmem)
    rw [get_eq_selHash h c name hc, hv] at hx
    have : v = x := by
      have := Except.ok.inj hx
      simpa [unwrapStr] using this
    rw [hv, this]
  set kh := h name with hkh
  set newKeys := (List.range c.number_of_replicas).map (fun i => h (elt_key m i)) with hnk
  have hget' : ∀ k, circleGet (c.add h m).circle k =
      if k ∈ newKeys then some m else circleGet c.circle k := by
    intro k
    rw [add_circle]
    exact circleGet_addFold h m _ _ k
  have hmemkeys' : ∀ k, k ∈ (c.add h m).circle.map Prod.fst ↔
      (k ∈ newKeys ∨ k ∈ c.circle.map Prod.fst) := by
    intro k
    rw [← circleGet_isSome_iff, hget']
    by_cases hk : k ∈ newKeys
    · simp [hk]
    · simp [hk, circleGet_isSome_iff]
  have hc' : (c.add h m).circle ≠ [] := by
    intro hnil
    have := (hmemkeys' (selHash c.sorted_hashes kh)).mpr
      (Or.inr ((mem_sorted_iff_keys c hsorted _).mp (selHash_mem _ kh hsne)))
    rw [hnil] at this
    simp at this
  have hsorted' : (c.add h m).sorted_hashes = sortedKeys (c.add h m).circle :=
    add_sorted h c m
  have hs' : (c.add h m).sorted_hashes.Sorted (· ≤ ·) :=
    hsorted' ▸ sortedKeys_sorted _
  have hsne' : (c.add h m).sorted_hashes ≠ [] := sorted_ne_nil _ hsorted' hc'
  have hmeml' : ∀ k, k ∈ (c.add h m).sorted_hashes ↔
      (k ∈ newKeys ∨ k ∈ c.sorted_hashes) := by
    intro k
    rw [mem_sorted_iff_keys _ hsorted', hmemkeys', mem_sorted_iff_keys c hsorted]
  set sel' := selHash (c.add h m).sorted_hashes kh with hsel'
  have hget'sel : (c.add h m).get h name =
      .ok (unwrapStr (circleGet (c.add h m).circle sel')) :=
    get_eq_selHash h (c.add h m) name hc'
  by_cases hcase : sel' ∈ newKeys
  · right
    rw [hget'sel, hget' sel', if_pos hcase]
    rfl
  · left
    have hselmem' : sel' ∈ (c.add h m).sorted_hashes := selHash_mem _ kh hsne'
    have hselold : sel' ∈ c.sorted_hashes := by
      rcases (hmeml' sel').mp hselmem' with hnew | hold
      · exact absurd hnew hcase
      · exact hold
    have hseleq : sel' = selHash c.sorted_hashes kh := by
      by_cases hex : ∃ y ∈ (c.add h m).sorted_hashes, kh < y
      · obtain ⟨y, hy, hky⟩ := hex
        obtain ⟨hgt', hmin'⟩ := selHash_spec_gt _ kh hs' y hy hky
        obtain ⟨hgt, hmin⟩ := selHash_spec_gt c.sorted_hashes kh hs sel' hselold hgt'
        have h1 : selHash c.sorted_hashes kh ≤ sel' := hmin sel' hselold hgt'
        have h2 : sel' ≤ selHash c.sorted_hashes kh := by
          apply hmin'
          · exact (hmeml' _).mpr (Or.inr (selHash_mem c.sorted_hashes kh hsne))
          · exact hgt
        omega
      · push_neg at hex
        have hall : ∀ y ∈ c.sorted_hashes, y ≤ kh := by
          intro y hy
          exact hex y ((hmeml' y).mpr (Or.inr hy))
        have hw' : sel' = (c.add h m).sorted_hashes.getD 0 0 := selHash_wrap _ kh hex
        have hw : selHash c.sorted_hashes kh = c.sorted_hashes.getD 0 0 :=
          selHash_wrap _ kh hall
        have h1 : sel' ≤ selHash c.sorted_hashes kh := by
          rw [hw']
          apply sorted_head_le _ hs'
          exact (hmeml' _).mpr (Or.inr (selHash_mem c.sorted_hashes kh hsne))
        have h2 : selHash c.sorted_hashes kh ≤ sel' := by
          rw [hw]
          exact sorted_head_le _ hs sel' hselold
        omega
    rw [hget'sel, hget' sel', if_neg hcase, hseleq, hgetx]
    rfl

/-- Witness for C2: adding member c to the concrete two-member ring leaves the
key owned by b (or hands it to c). -/
theorem C2_witness :
    (cT.add hT ("c")).get hT ("k") = .ok ("b") ∨
      (cT.add hT ("c")).get hT ("k") = .ok ("c") :=
  C2_stable_under_add hT cT ("k") ("c") ("b") (by decide) (by decide) (by decide)

/-- C3 (bug): on the nonempty one-member ring `cS`, `get_n(key, 0)` never
returns at all when the key hashes above every virtual node (start index 0):
the walk wraps `j` to 0 after the `j != i` test, so it never observes `j = i`
and loops forever — contradicting "returns a successful result in every other
state". -/
theorem C3_getN_zero_diverges : ∀ fuel, cS.get_n hS ("k") 0 fuel = none := by
  have hstep : ∀ n, getNLoop cS.circle cS.sorted_hashes 0 0 (n + 1) 1 [("a")] =
      getNLoop cS.circle cS.sorted_hashes 0 0 n 1 [("a")] := fun n => rfl
  have hloop : ∀ fuel, getNLoop cS.circle cS.sorted_hashes 0 0 fuel 1 [("a")] = none := by
    intro fuel
    induction fuel with
    | zero => rfl
    | succ n ih =>
      rw [hstep n]
      exact ih
  intro fuel
  have houter : cS.get_n hS ("k") 0 fuel =
      match getNLoop cS.circle cS.sorted_hashes 0 0 fuel 1 [("a")] with
      | none => none
      | some r => some (.ok r) := rfl
  rw [houter, hloop fuel]

/-- C9 (bug): after `add(a); add(a)` the counter is 2 while only one distinct
member exists; `get_two` on a key whose start index is 0 then walks forever:
the wrap to index 0 happens after the `j != i` test, so with `i = 0` the test
never fires and no differing member ever appears. -/
theorem C9_getTwo_diverges : ∀ fuel, cDup.get_two hS ("k") fuel = none := by
  have hstep : ∀ n, getTwoLoop cDup.circle cDup.sorted_hashes ("a") 0 (n + 1) 1 =
      getTwoLoop cDup.circle cDup.sorted_hashes ("a") 0 n 1 := fun n => rfl
  have hloop : ∀ fuel, getTwoLoop cDup.circle cDup.sorted_hashes ("a") 0 fuel 1 = none := by
    intro fuel
    induction fuel with
    | zero => rfl
    | succ n ih =>
      rw [hstep n]
      exact ih
  intro fuel
  have houter : cDup.get_two hS ("k") fuel =
      match getTwoLoop cDup.circle cDup.sorted_hashes ("a") 0 fuel 1 with
      | none => none
      | some b => some (.ok (("a"), b)) := rfl
  rw [houter, hloop fuel]

/-- C4 counterexample: from a fresh one-replica ring, `add(a); remove(b)` (a
remove of an absent member) leaves one member but decrements the counter to 0,
so `count ≠ members.len()` and the remove was not a count no-op. -/
theorem C4_counterexample :
    (applyMuts hS (ringNew 1) [Mut.add ("a"), Mut.remove ("b")]).count ≠
      (applyMuts hS (ringNew 1) [Mut.add ("a"), Mut.remove ("b")]).members.length := by
  decide

/-- C6 counterexample: on the two-member ring `cC`, `get_n(key, 0)` returns a
two-element list even though at most `min(0, 2) = 0` names were requested (the
primary is pushed before the count is consulted, and `n = 0` can never be hit
by the equality test that stops the walk). -/
theorem C6_counterexample :
    cC.get_n hC ("k") 0 10 = some (.ok [("b"), ("a")]) ∧
      ([("b"), ("a")] : List String).length > min 0 cC.members.length := by
  decide

/-! ### Member-set lemmas -/

theorem membersInsert_of_not_mem (ms : List String) (v : String) (h : v ∉ ms) :
    membersInsert ms v = ms ++ [v] := by
  unfold membersInsert
  exact if_neg h

theorem membersInsert_of_mem (ms : List String) (v : String) (h : v ∈ ms) :
    membersInsert ms v = ms := by
  unfold membersInsert
  exact if_pos h

theorem mem_membersInsert (ms : List String) (v x : String) :
    x ∈ membersInsert ms v ↔ x ∈ ms ∨ x = v := by
  unfold membersInsert
  by_cases h : v ∈ ms
  · simp only [if_pos h]
    constructor
    · exact Or.inl
    · rintro (hx | rfl)
      · exact hx
      · exact h
  · simp [if_neg h]

theorem mem_membersRemove (ms : List String) (v x : String) :
    x ∈ membersRemove ms v ↔ x ∈ ms ∧ x ≠ v := by
  induction ms with
  | nil => simp [membersRemove]
  | cons m rest ih =>
    by_cases hm : m = v
    · subst hm
      simp [membersRemove, ih]
      intro h hx
      exact absurd hx h
    · simp only [membersRemove, if_neg hm, List.mem_cons, ih]
      constructor
      · rintro (rfl | ⟨hx, hv⟩)
        · exact ⟨Or.inl rfl, hm⟩
        · exact ⟨Or.inr hx, hv⟩
      · rintro ⟨rfl | hx, hv⟩
        · exact Or.inl rfl
        · exact Or.inr ⟨hx, hv⟩

theorem membersRemove_nodup (ms : List String) (v : String) (h : ms.Nodup) :
    (membersRemove ms v).Nodup := by
  induction ms with
  | nil => simp [membersRemove]
  | cons m rest ih =>
    obtain ⟨hnm, hrest⟩ := List.nodup_cons.mp h
    by_cases hm : m = v
    · simp only [membersRemove, if_pos hm]
      exact ih hrest
    · simp only [membersRemove, if_neg hm, List.nodup_cons]
      refine ⟨fun hc => hnm ((mem_membersRemove rest v m).mp hc).1, ih hrest⟩

theorem membersRemove_of_not_mem (ms : List String) (v : String) (h : v ∉ ms) :
    membersRemove ms v = ms := by
  induction ms with
  | nil => rfl
  | cons m rest ih =>
    have hm : ¬m = v := fun he => h (he ▸ List.mem_cons_self _ _)
    simp only [membersRemove, if_neg hm]
    rw [ih (fun hc => h (List.mem_cons_of_mem _ hc))]

theorem length_membersRemove (ms : List String) (v : String) (hnd : ms.Nodup)
    (hv : v ∈ ms) : (membersRemove ms v).length + 1 = ms.length := by
  induction ms with
  | nil => simp at hv
  | cons m rest ih =>
    obtain ⟨hnm, hrest⟩ := List.nodup_cons.mp hnd
    rcases List.mem_cons.mp hv with rfl | hmem
    · simp only [membersRemove, if_pos rfl]
      rw [membersRemove_of_not_mem rest v hnm]
      simp
    · have hm : ¬m = v := fun he => hnm (he ▸ hmem)
      simp only [membersRemove, if_neg hm, List.length_cons]
      rw [← ih hrest hmem]

theorem usizeSize_pos : 0 < usizeSize := by norm_num [usizeSize]

theorem add_members_of_not_mem (h : String → Nat) (c : Consistent) (elt : String)
    (he : elt ∉ c.members) : (c.add h elt).members = c.members ++ [elt] := by
  rw [add_members]
  exact membersInsert_of_not_mem _ _ he

theorem count_add_eq (h : String → Nat) (c : Consistent) (elt : String)
    (hlt : c.count + 1 < usizeSize) : (c.add h elt).count = c.count + 1 := by
  rw [add_count]
  exact Nat.mod_eq_of_lt hlt

theorem count_remove_eq (h : String → Nat) (c : Consistent) (elt : String)
    (h1 : 1 ≤ c.count) (h2 : c.count < usizeSize) :
    (c.remove h elt).count = c.count - 1 := by
  rw [remove_count]
  have hpos := usizeSize_pos
  have heq : c.count + (usizeSize - 1) = (c.count - 1) + usizeSize := by omega
  rw [heq, Nat.add_mod_right]
  exact Nat.mod_eq_of_lt (by omega)

/-! ### The count invariant (proper sequences) -/

theorem count_invariant_removeFold (h : String → Nat) (ks : List String) :
    ∀ c : Consistent, c.count = c.members.length → c.members.Nodup →
      c.members.length < usizeSize →
      ks.Nodup → (∀ x ∈ ks, x ∈ c.members) →
      ((ks.foldl (fun c key => c.remove h key) c).count =
          (ks.foldl (fun c key => c.remove h key) c).members.length ∧
        (ks.foldl (fun c key => c.remove h key) c).members.Nodup ∧
        (ks.foldl (fun c key => c.remove h key) c).members.length ≤ c.members.length) := by
  induction ks with
  | nil => exact fun c hc hnd hlt _ _ => ⟨hc, hnd, Nat.le_refl _⟩
  | cons k rest ih =>
    intro c hc hnd hlt hknd hkmem
    obtain ⟨hkr, hrnd⟩ := List.nodup_cons.mp hknd
    have hkc : k ∈ c.members := hkmem k (List.mem_cons_self _ _)
    have hpos : 1 ≤ c.members.length := List.length_pos.mpr (List.ne_nil_of_mem hkc)
    have hcount1 : (c.remove h k).count = c.members.length - 1 := by
      rw [count_remove_eq h c k (hc ▸ hpos) (hc ▸ hlt), hc]
    have hmem1 : (c.remove h k).members = membersRemove c.members k := remove_members h c k
    have hlen1 : (c.remove h k).members.length = c.members.length - 1 := by
      rw [hmem1]
      have := length_membersRemove c.members k hnd hkc
      omega
    have hnd1 : (c.remove h k).members.Nodup := hmem1 ▸ membersRemove_nodup _ _ hnd
    have hrest : ∀ x ∈ rest, x ∈ (c.remove h k).members := by
      intro x hx
      rw [hmem1, mem_membersRemove]
      exact ⟨hkmem x (List.mem_cons_of_mem _ hx), fun he => hkr (he ▸ hx)⟩
    have := ih (c.remove h k) (hcount1.trans hlen1.symm) hnd1 (by omega) hrnd hrest
    simp only [List.foldl_cons]
    exact ⟨this.1, this.2.1, this.2.2.trans (by omega)⟩


theorem count_invariant_addFold (h : String → Nat) (elts : List String) :
    ∀ c : Consistent, c.count = c.members.length → c.members.Nodup →
      c.members.length + elts.length < usizeSize →
      ((elts.foldl (fun c v => if v ∈ c.members then c else c.add h v) c).count =
          (elts.foldl (fun c v => if v ∈ c.members then c else c.add h v) c).members.length ∧
        (elts.foldl (fun c v => if v ∈ c.members then c else c.add h v) c).members.Nodup ∧
        (elts.foldl (fun c v => if v ∈ c.members then c else c.add h v) c).members.length ≤
          c.members.length + elts.length) := by
  induction elts with
  | nil => exact fun c hc hnd _ => ⟨hc, hnd, by simp⟩
  | cons v rest ih =>
    intro c hc hnd hlt
    simp only [List.length_cons] at hlt
    simp only [List.foldl_cons, List.length_cons]
    by_cases hv : v ∈ c.members
    · rw [if_pos hv]
      have := ih c hc hnd (by omega)
      exact ⟨this.1, this.2.1, this.2.2.trans (by omega)⟩
    · rw [if_neg hv]
      have hmem1 : (c.add h v).members = c.members ++ [v] := add_members_of_not_mem h c v hv
      have hlen1 : (c.add h v).members.length = c.members.length + 1 := by
        rw [hmem1]
        simp
      have hcount1 : (c.add h v).count = c.members.length + 1 := by
        rw [count_add_eq h c v (by omega), hc]
      have hnd1 : (c.add h v).members.Nodup := by
        rw [hmem1]
        simp [List.nodup_append, hnd, hv]
      have hres := ih (c.add h v) (hcount1.trans hlen1.symm) hnd1 (by omega)
      have h3 := hres.2.2
      rw [hlen1] at h3
      exact ⟨hres.1, hres.2.1, h3.trans (by omega)⟩

theorem count_invariant_set (h : String → Nat) (c : Consistent) (elts : List String)
    (hcount : c.count = c.members.length) (hnd : c.members.Nodup)
    (hbound : c.members.length + elts.length < usizeSize) :
    (c.set h elts).count = (c.set h elts).members.length ∧ (c.set h elts).members.Nodup ∧
      (c.set h elts).members.length ≤ c.members.length + elts.length := by
  rw [set_eq]
  have hknd : (c.members.filter (fun member => !(elts.any (fun elt => member == elt)))).Nodup :=
    hnd.filter _
  have hkmem : ∀ x ∈ c.members.filter (fun member => !(elts.any (fun elt => member == elt))),
      x ∈ c.members := fun x hx => (List.mem_filter.mp hx).1
  obtain ⟨h1, h2, h3⟩ := count_invariant_removeFold h
    (c.members.filter (fun member => !(elts.any (fun elt => member == elt)))) c
    hcount hnd (by omega) hknd hkmem
  obtain ⟨g1, g2, g3⟩ := count_invariant_addFold h elts _ h1 h2 (by omega)
  exact ⟨g1, g2, g3.trans (by omega)⟩

theorem count_invariant_muts (h : String → Nat) (muts : List Mut) :
    ∀ c : Consistent, properMuts h c muts = true →
      c.count = c.members.length → c.members.Nodup →
      c.members.length + mutsWeight muts < usizeSize →
      ((applyMuts h c muts).count = (applyMuts h c muts).members.length ∧
        (applyMuts h c muts).members.Nodup ∧
        (applyMuts h c muts).members.length ≤ c.members.length + mutsWeight muts) := by
  induction muts with
  | nil => exact fun c _ hc hnd _ => ⟨hc, hnd, by simp [applyMuts, mutsWeight]⟩
  | cons m rest ih =>
    intro c hp hc hnd hlt
    have happ : applyMuts h c (m :: rest) = applyMuts h (applyMut h c m) rest := rfl
    rw [happ]
    have hwc : mutsWeight (m :: rest) = mutWeight m + mutsWeight rest := by
      simp [mutsWeight]
    rw [hwc] at hlt ⊢
    cases m with
    | add s =>
      simp only [properMuts, Bool.and_eq_true] at hp
      have hs : s ∉ c.members := by
        have := hp.1
        simp at this
        simpa using this
      simp only [mutWeight] at hlt ⊢
      have hmem1 : (c.add h s).members = c.members ++ [s] := add_members_of_not_mem h c s hs
      have hlen1 : (c.add h s).members.length = c.members.length + 1 := by
        rw [hmem1]
        simp
      have hcount1 : (c.add h s).count = c.members.length + 1 := by
        rw [count_add_eq h c s (by omega), hc]
      have hnd1 : (c.add h s).members.Nodup := by
        rw [hmem1]
        simp [List.nodup_append, hnd, hs]
      have hres := ih (c.add h s) hp.2 (hcount1.trans hlen1.symm) hnd1 (by omega)
      have h3 := hres.2.2
      rw [hlen1] at h3
      exact ⟨hres.1, hres.2.1, h3.trans (by omega)⟩
    | remove s =>
      simp only [properMuts, Bool.and_eq_true] at hp
      have hs : s ∈ c.members := by
        have := hp.1
        simpa using this
      simp only [mutWeight] at hlt ⊢
      have hpos : 1 ≤ c.members.length := List.length_pos.mpr (List.ne_nil_of_mem hs)
      have hcount1 : (c.remove h s).count = c.members.length - 1 := by
        rw [count_remove_eq h c s (hc ▸ hpos) (by omega), hc]
      have hmem1 : (c.remove h s).members = membersRemove c.members s := remove_members h c s
      have hlen1 : (c.remove h s).members.length = c.members.length - 1 := by
        rw [hmem1]
        have := length_membersRemove c.members s hnd hs
        omega
      have hnd1 : (c.remove h s).members.Nodup := hmem1 ▸ membersRemove_nodup _ _ hnd
      have hres := ih (c.remove h s) hp.2 (hcount1.trans hlen1.symm) hnd1 (by omega)
      have h3 := hres.2.2
      rw [hlen1] at h3
      exact ⟨hres.1, hres.2.1, h3.trans (by omega)⟩
    | set l =>
      simp only [properMuts, Bool.and_eq_true] at hp
      simp only [mutWeight] at hlt ⊢
      obtain ⟨g1, g2, g3⟩ := count_invariant_set h c l hc hnd (by omega)
      have hres := ih (c.set h l) hp.2 g1 g2 (by omega)
      exact ⟨hres.1, hres.2.1, hres.2.2.trans (by omega)⟩

/-- C4 (amended): after every proper mutation sequence (each add of an absent
member, each remove of a present member, set unrestricted) of total weight
below `2^64` starting from a fresh ring, `count` equals `members.len()`.
The original claim fails because removing an absent member still decrements
`count`: see the counterexample. -/
theorem C4_count_matches_members (h : String → Nat) (R : Nat) (muts : List Mut)
    (hp : properMuts h (ringNew R) muts = true)
    (hb : mutsWeight muts < usizeSize) :
    (applyMuts h (ringNew R) muts).count = (applyMuts h (ringNew R) muts).members.length :=
  (count_invariant_muts h muts (ringNew R) hp rfl (by constructor)
    (by simpa [ringNew, Consistent.new, Consistent.with_number_of_replicas] using hb)).1

/-- Witness for C4 on a concrete proper sequence mixing add, remove and set. -/
theorem C4_witness :
    (applyMuts hT (ringNew 1)
        [Mut.add ("a"), Mut.add ("b"), Mut.remove ("a"), Mut.set [("b"), ("c")]]).count =
      (applyMuts hT (ringNew 1)
        [Mut.add ("a"), Mut.add ("b"), Mut.remove ("a"), Mut.set [("b"), ("c")]]).members.length :=
  C4_count_matches_members hT 1
    [Mut.add ("a"), Mut.add ("b"), Mut.remove ("a"), Mut.set [("b"), ("c")]]
    (by decide) (by decide)

/-! ### The circle characterization invariant -/

theorem membersInsert_nodup (ms : List String) (v : String) (h : ms.Nodup) :
    (membersInsert ms v).Nodup := by
  unfold membersInsert
  by_cases hv : v ∈ ms
  · simpa [hv] using h
  · simp [hv, List.nodup_append, h]

theorem cchar_lookup (h : String → Nat) (c : Consistent) (hc : CChar h c)
    (k : Nat) (v : String) :
    circleGet c.circle k = some v ↔
      (v ∈ c.members ∧ ∃ i ∈ List.range c.number_of_replicas, k = h (elt_key v i)) := by
  constructor
  · intro hget
    exact hc.entries (k, v) (circleGet_mem _ _ _ hget)
  · rintro ⟨hv, i, hi, rfl⟩
    exact hc.complete v hv i hi

theorem cchar_add (h : String → Nat) (c : Consistent) (elt : String) (NS : List String)
    (hc : CChar h c) (hinj : VInj h c.number_of_replicas NS)
    (hms : ∀ x ∈ c.members, x ∈ NS) (helt : elt ∈ NS) :
    CChar h (c.add h elt) := by
  have hrep : (c.add h elt).number_of_replicas = c.number_of_replicas := add_replicas h c elt
  have hmem' : (c.add h elt).members = membersInsert c.members elt := add_members h c elt
  have hget' : ∀ k, circleGet (c.add h elt).circle k =
      if k ∈ (List.range c.number_of_replicas).map (fun i => h (elt_key elt i)) then some elt
      else circleGet c.circle k := by
    intro k
    rw [add_circle]
    exact circleGet_addFold h elt _ _ k
  have hknd : ((c.add h elt).circle.map Prod.fst).Nodup := by
    rw [add_circle]
    exact keys_nodup_addFold h elt _ _ hc.keys_nodup
  constructor
  · rw [hmem']
    exact membersInsert_nodup _ _ hc.members_nodup
  · exact hknd
  · intro kv hkv
    have hget : circleGet (c.add h elt).circle kv.1 = some kv.2 :=
      mem_circleGet _ _ _ hknd (by simpa using hkv)
    rw [hget' kv.1] at hget
    by_cases hk : kv.1 ∈ (List.range c.number_of_replicas).map (fun i => h (elt_key elt i))
    · rw [if_pos hk] at hget
      have hv : kv.2 = elt := by
        have := Option.some.inj hget
        exact this.symm
      obtain ⟨i, hi, hik⟩ := List.mem_map.mp hk
      refine ⟨?_, i, by simpa [hrep] using hi, by rw [hv, ← hik]⟩
      rw [hmem', mem_membersInsert]
      exact Or.inr hv
    · rw [if_neg hk] at hget
      obtain ⟨hv, i, hi, hik⟩ := hc.entries kv (circleGet_mem _ _ _ hget)
      refine ⟨?_, i, by simpa [hrep] using hi, hik⟩
      rw [hmem', mem_membersInsert]
      exact Or.inl hv
  · intro v hv i hi
    rw [hmem', mem_membersInsert] at hv
    rw [hrep] at hi
    rw [hget']
    by_cases hk : h (elt_key v i) ∈
        (List.range c.number_of_replicas).map (fun i => h (elt_key elt i))
    · rw [if_pos hk]
      obtain ⟨i2, hi2, hik⟩ := List.mem_map.mp hk
      have hvNS : v ∈ NS := by
        rcases hv with hv | rfl
        · exact hms v hv
        · exact helt
      obtain ⟨he, _⟩ := hinj v hvNS i hi elt helt i2 hi2 hik.symm
      rw [he]
    · rw [if_neg hk]
      rcases hv with hv | rfl
      · exact hc.complete v hv i hi
      · exact absurd (List.mem_map.mpr ⟨i, hi, rfl⟩) hk
  · exact add_sorted h c elt

theorem cchar_remove (h : String → Nat) (c : Consistent) (elt : String) (NS : List String)
    (hc : CChar h c) (hinj : VInj h c.number_of_replicas NS)
    (hms : ∀ x ∈ c.members, x ∈ NS) (helt : elt ∈ NS) :
    CChar h (c.remove h elt) := by
  have hrep : (c.remove h elt).number_of_replicas = c.number_of_replicas := remove_replicas h c elt
  have hmem' : (c.remove h elt).members = membersRemove c.members elt := remove_members h c elt
  have hget' : ∀ k, circleGet (c.remove h elt).circle k =
      if k ∈ (List.range c.number_of_replicas).map (fun i => h (elt_key elt i)) then none
      else circleGet c.circle k := by
    intro k
    rw [remove_circle]
    exact circleGet_removeFold h elt _ _ k
  have hknd : ((c.remove h elt).circle.map Prod.fst).Nodup := by
    rw [remove_circle]
    exact keys_nodup_removeFold h elt _ _ hc.keys_nodup
  constructor
  · rw [hmem']
    exact membersRemove_nodup _ _ hc.members_nodup
  · exact hknd
  · intro kv hkv
    have hget : circleGet (c.remove h elt).circle kv.1 = some kv.2 :=
      mem_circleGet _ _ _ hknd (by simpa using hkv)
    rw [hget' kv.1] at hget
    by_cases hk : kv.1 ∈ (List.range c.number_of_replicas).map (fun i => h (elt_key elt i))
    · rw [if_pos hk] at hget
      exact absurd hget (by simp)
    · rw [if_neg hk] at hget
      obtain ⟨hv, i, hi, hik⟩ := hc.entries kv (circleGet_mem _ _ _ hget)
      have hne : kv.2 ≠ elt := by
        rintro rfl
        exact hk (hik ▸ List.mem_map.mpr ⟨i, hi, rfl⟩)
      refine ⟨?_, i, by simpa [hrep] using hi, hik⟩
      rw [hmem', mem_membersRemove]
      exact ⟨hv, hne⟩
  · intro v hv i hi
    rw [hmem', mem_membersRemove] at hv
    rw [hrep] at hi
    rw [hget']
    have hk : h (elt_key v i) ∉
        (List.range c.number_of_replicas).map (fun i => h (elt_key elt i)) := by
      intro hk
      obtain ⟨i2, hi2, hik⟩ := List.mem_map.mp hk
      obtain ⟨he, _⟩ := hinj v (hms v hv.1) i hi elt helt i2 hi2 hik.symm
      exact hv.2 he
    rw [if_neg hk]
    exact hc.complete v hv.1 i hi
  · exact remove_sorted h c elt

theorem mem_membersRemoveFold (ks : List String) :
    ∀ (ms : List String) (x : String),
      x ∈ ks.foldl membersRemove ms ↔ x ∈ ms ∧ x ∉ ks := by
  induction ks with
  | nil => simp
  | cons k rest ih =>
    intro ms x
    simp only [List.foldl_cons, ih, mem_membersRemove, List.mem_cons]
    constructor
    · rintro ⟨⟨hx, hk⟩, hr⟩
      exact ⟨hx, by
        rintro (rfl | hc)
        · exact hk rfl
        · exact hr hc⟩
    · rintro ⟨hx, hnk⟩
      exact ⟨⟨hx, fun he => hnk (Or.inl he)⟩, fun hc => hnk (Or.inr hc)⟩

theorem cchar_removeFold (h : String → Nat) (NS : List String) (ks : List String) :
    ∀ c : Consistent, CChar h c → VInj h c.number_of_replicas NS →
      (∀ x ∈ c.members, x ∈ NS) → (∀ x ∈ ks, x ∈ NS) →
      (CChar h (ks.foldl (fun c key => c.remove h key) c) ∧
        (ks.foldl (fun c key => c.remove h key) c).members = ks.foldl membersRemove c.members ∧
        (ks.foldl (fun c key => c.remove h key) c).number_of_replicas =
          c.number_of_replicas) := by
  induction ks with
  | nil => exact fun c hc _ _ _ => ⟨hc, rfl, rfl⟩
  | cons k rest ih =>
    intro c hc hinj hms hks
    have hk : k ∈ NS := hks k (List.mem_cons_self _ _)
    have hc1 : CChar h (c.remove h k) := cchar_remove h c k NS hc hinj hms hk
    have hrep : (c.remove h k).number_of_replicas = c.number_of_replicas := rfl
    have hms1 : ∀ x ∈ (c.remove h k).members, x ∈ NS := by
      intro x hx
      rw [remove_members, mem_membersRemove] at hx
      exact hms x hx.1
    have := ih (c.remove h k) hc1 (hrep ▸ hinj) hms1
      (fun x hx => hks x (List.mem_cons_of_mem _ hx))
    simp only [List.foldl_cons]
    refine ⟨this.1, ?_, this.2.2.trans hrep⟩
    rw [this.2.1, remove_members]

theorem cchar_addFold (h : String → Nat) (NS : List String) (elts : List String) :
    ∀ c : Consistent, CChar h c → VInj h c.number_of_replicas NS →
      (∀ x ∈ c.members, x ∈ NS) → (∀ x ∈ elts, x ∈ NS) →
      (CChar h (elts.foldl (fun c v => if v ∈ c.members then c else c.add h v) c) ∧
        (∀ x, x ∈ (elts.foldl (fun c v => if v ∈ c.members then c else c.add h v) c).members ↔
          (x ∈ c.members ∨ x ∈ elts)) ∧
        (elts.foldl (fun c v => if v ∈ c.members then c else c.add h v) c).number_of_replicas =
          c.number_of_replicas) := by
  induction elts with
  | nil => exact fun c hc _ _ _ => ⟨hc, by simp, rfl⟩
  | cons v rest ih =>
    intro c hc hinj hms hvs
    have hv : v ∈ NS := hvs v (List.mem_cons_self _ _)
    simp only [List.foldl_cons]
    by_cases hvm : v ∈ c.members
    · rw [if_pos hvm]
      have := ih c hc hinj hms (fun x hx => hvs x (List.mem_cons_of_mem _ hx))
      refine ⟨this.1, ?_, this.2.2⟩
      intro x
      rw [this.2.1 x]
      constructor
      · rintro (hx | hx)
        · exact Or.inl hx
        · exact Or.inr (List.mem_cons_of_mem _ hx)
      · rintro (hx | hx)
        · exact Or.inl hx
        · rcases List.mem_cons.mp hx with rfl | hx
          · exact Or.inl hvm
          · exact Or.inr hx
    · rw [if_neg hvm]
      have hc1 : CChar h (c.add h v) := cchar_add h c v NS hc hinj hms hv
      have hrep : (c.add h v).number_of_replicas = c.number_of_replicas := rfl
      have hms1 : ∀ x ∈ (c.add h v).members, x ∈ NS := by
        intro x hx
        rw [add_members, mem_membersInsert] at hx
        rcases hx with hx | rfl
        · exact hms x hx
        · exact hv
      have := ih (c.add h v) hc1 (hrep ▸ hinj) hms1
        (fun x hx => hvs x (List.mem_cons_of_mem _ hx))
      refine ⟨this.1, ?_, this.2.2.trans hrep⟩
      intro x
      rw [this.2.1 x, add_members, mem_membersInsert]
      constructor
      · rintro ((hx | rfl) | hx)
        · exact Or.inl hx
        · exact Or.inr (List.mem_cons_self _ _)
        · exact Or.inr (List.mem_cons_of_mem _ hx)
      · rintro (hx | hx)
        · exact Or.inl (Or.inl hx)
        · rcases List.mem_cons.mp hx with rfl | hx
          · exact Or.inl (Or.inr rfl)
          · exact Or.inr hx

theorem elts_any_eq_mem (elts : List String) (x : String) :
    (elts.any (fun elt => x == elt)) = true ↔ x ∈ elts := by
  rw [List.any_eq_true]
  constructor
  · rintro ⟨e, he, hbe⟩
    rw [beq_iff_eq] at hbe
    exact hbe ▸ he
  · intro hx
    exact ⟨x, hx, by simp⟩

theorem cchar_set (h : String → Nat) (c : Consistent) (elts : List String) (NS : List String)
    (hc : CChar h c) (hinj : VInj h c.number_of_replicas NS)
    (hms : ∀ x ∈ c.members, x ∈ NS) (helts : ∀ x ∈ elts, x ∈ NS) :
    CChar h (c.set h elts) ∧
      (∀ x, x ∈ (c.set h elts).members ↔ x ∈ elts) ∧
      (c.set h elts).number_of_replicas = c.number_of_replicas := by
  rw [set_eq]
  have hkeysNS : ∀ x ∈ c.members.filter (fun member => !(elts.any (fun elt => member == elt))),
      x ∈ NS := fun x hx => hms x (List.mem_filter.mp hx).1
  obtain ⟨hc1, hmem1, hrep1⟩ := cchar_removeFold h NS
    (c.members.filter (fun member => !(elts.any (fun elt => member == elt)))) c
    hc hinj hms hkeysNS
  have hms1 : ∀ x ∈ (((c.members.filter
      (fun member => !(elts.any (fun elt => member == elt)))).foldl
      (fun c key => c.remove h key) c)).members, x ∈ NS := by
    intro x hx
    rw [hmem1, mem_membersRemoveFold] at hx
    exact hms x hx.1
  obtain ⟨hc2, hmem2, hrep2⟩ := cchar_addFold h NS elts _ hc1 (hrep1 ▸ hinj) hms1 helts
  refine ⟨hc2, ?_, hrep2.trans hrep1⟩
  intro x
  rw [hmem2 x, hmem1, mem_membersRemoveFold]
  constructor
  · rintro (⟨hx, hnk⟩ | hx)
    · by_contra hne
      exact hnk (List.mem_filter.mpr ⟨hx, by
        simp only [Bool.not_eq_true']
        rw [← Bool.not_eq_true, elts_any_eq_mem]
        exact hne⟩)
    · exact hx
  · intro hx
    exact Or.inr hx

theorem cchar_muts (h : String → Nat) (muts : List Mut) (NS : List String) :
    ∀ c : Consistent, CChar h c → VInj h c.number_of_replicas NS →
      (∀ x ∈ c.members, x ∈ NS) → (∀ x ∈ touchedNames muts, x ∈ NS) →
      (CChar h (applyMuts h c muts) ∧
        (applyMuts h c muts).number_of_replicas = c.number_of_replicas ∧
        (∀ x ∈ (applyMuts h c muts).members, x ∈ NS)) := by
  induction muts with
  | nil => exact fun c hc _ hms _ => ⟨hc, rfl, hms⟩
  | cons m rest ih =>
    intro c hc hinj hms htn
    have happ : applyMuts h c (m :: rest) = applyMuts h (applyMut h c m) rest := rfl
    rw [happ]
    cases m with
    | add s =>
      have hs : s ∈ NS := htn s (by simp [touchedNames])
      have hc1 := cchar_add h c s NS hc hinj hms hs
      have hrep : (c.add h s).number_of_replicas = c.number_of_replicas := rfl
      have hms1 : ∀ x ∈ (c.add h s).members, x ∈ NS := by
        intro x hx
        rw [add_members, mem_membersInsert] at hx
        rcases hx with hx | rfl
        · exact hms x hx
        · exact hs
      have := ih (c.add h s) hc1 (hrep ▸ hinj) hms1
        (fun x hx => htn x (by simp [touchedNames, hx]))
      exact ⟨this.1, this.2.1.trans hrep, this.2.2⟩
    | remove s =>
      have hs : s ∈ NS := htn s (by simp [touchedNames])
      have hc1 := cchar_remove h c s NS hc hinj hms hs
      have hrep : (c.remove h s).number_of_replicas = c.number_of_replicas := rfl
      have hms1 : ∀ x ∈ (c.remove h s).members, x ∈ NS := by
        intro x hx
        rw [remove_members, mem_membersRemove] at hx
        exact hms x hx.1
      have := ih (c.remove h s) hc1 (hrep ▸ hinj) hms1
        (fun x hx => htn x (by simp [touchedNames, hx]))
      exact ⟨this.1, this.2.1.trans hrep, this.2.2⟩
    | set l =>
      have hls : ∀ x ∈ l, x ∈ NS := fun x hx => htn x (by simp [touchedNames, hx])
      obtain ⟨hc1, hmem1, hrep1⟩ := cchar_set h c l NS hc hinj hms hls
      have hms1 : ∀ x ∈ (c.set h l).members, x ∈ NS := by
        intro x hx
        exact hls x ((hmem1 x).mp hx)
      have := ih (c.set h l) hc1 (hrep1 ▸ hinj) hms1
        (fun x hx => htn x (by simp [touchedNames, hx]))
      exact ⟨this.1, this.2.1.trans hrep1, this.2.2⟩

theorem cchar_circle_length (h : String → Nat) (c : Consistent) (NS : List String)
    (hc : CChar h c) (hinj : VInj h c.number_of_replicas NS)
    (hms : ∀ x ∈ c.members, x ∈ NS) :
    c.circle.length = c.members.length * c.number_of_replicas := by
  set R := c.number_of_replicas with hR
  have hmemkeys : ∀ k, k ∈ c.circle.map Prod.fst ↔
      (∃ v ∈ c.members, ∃ i ∈ List.range R, k = h (elt_key v i)) := by
    intro k
    rw [← circleGet_isSome_iff]
    constructor
    · intro hk
      obtain ⟨v, hv⟩ := Option.isSome_iff_exists.mp hk
      obtain ⟨hvm, i, hi, hik⟩ := (cchar_lookup h c hc k v).mp hv
      exact ⟨v, hvm, i, hi, hik⟩
    · rintro ⟨v, hvm, i, hi, rfl⟩
      rw [hc.complete v hvm i hi]
      rfl
  have hfin : (c.circle.map Prod.fst).toFinset =
      (c.members.toFinset ×ˢ (List.range R).toFinset).image
        (fun p => h (elt_key p.1 p.2)) := by
    ext k
    rw [List.mem_toFinset, hmemkeys k, Finset.mem_image]
    constructor
    · rintro ⟨v, hvm, i, hi, rfl⟩
      exact ⟨(v, i), Finset.mem_product.mpr
        ⟨List.mem_toFinset.mpr hvm, List.mem_toFinset.mpr hi⟩, rfl⟩
    · rintro ⟨⟨v, i⟩, hp, rfl⟩
      obtain ⟨h1, h2⟩ := Finset.mem_product.mp hp
      exact ⟨v, List.mem_toFinset.mp h1, i, List.mem_toFinset.mp h2, rfl⟩
  have hinjOn : Set.InjOn (fun p : String × Nat => h (elt_key p.1 p.2))
      ↑(c.members.toFinset ×ˢ (List.range R).toFinset) := by
    rintro ⟨v, i⟩ hp ⟨v2, i2⟩ hp2 he
    have hp := Finset.mem_product.mp (Finset.mem_coe.mp hp)
    have hp2 := Finset.mem_product.mp (Finset.mem_coe.mp hp2)
    have h1 := hms v (List.mem_toFinset.mp hp.1)
    have h2 := hms v2 (List.mem_toFinset.mp hp2.1)
    obtain ⟨he1, he2⟩ := hinj v h1 i (List.mem_toFinset.mp hp.2) v2 h2 i2
      (List.mem_toFinset.mp hp2.2) he
    simp [he1, he2]
  have hcard1 : (c.circle.map Prod.fst).toFinset.card = c.circle.length := by
    rw [List.toFinset_card_of_nodup hc.keys_nodup, List.length_map]
  have hcard2 : c.members.toFinset.card = c.members.length :=
    List.toFinset_card_of_nodup hc.members_nodup
  have hcard3 : (List.range R).toFinset.card = R := by
    rw [List.toFinset_card_of_nodup (List.nodup_range R), List.length_range]
  rw [← hcard1, hfin, Finset.card_image_of_injOn hinjOn, Finset.card_product,
    hcard2, hcard3]

theorem cchar_new (R : Nat) (h : String → Nat) : CChar h (ringNew R) := by
  constructor <;> simp [ringNew, Consistent.new, Consistent.with_number_of_replicas,
    circleGet, sortedKeys]

/-- C5: after every mutation sequence whose touched names have collision-free
virtual-node hashes, the sorted index is exactly an ascending ordering of the
circle's keys (a sorted permutation, and the keys are duplicate-free), and the
circle holds `members.len() * number_of_replicas` entries. -/
theorem C5_index_and_size_invariants (h : String → Nat) (R : Nat) (muts : List Mut)
    (hinj : VInj h R (touchedNames muts)) :
    (applyMuts h (ringNew R) muts).sorted_hashes.Sorted (· ≤ ·) ∧
      (applyMuts h (ringNew R) muts).sorted_hashes.Perm
        ((applyMuts h (ringNew R) muts).circle.map Prod.fst) ∧
      ((applyMuts h (ringNew R) muts).circle.map Prod.fst).Nodup ∧
      (applyMuts h (ringNew R) muts).circle.length =
        (applyMuts h (ringNew R) muts).members.length * R := by
  have hrepnew : (ringNew R).number_of_replicas = R := rfl
  obtain ⟨hc, hrep, hmsNS⟩ := cchar_muts h muts (touchedNames muts) (ringNew R)
    (cchar_new R h) (hrepnew ▸ hinj) (by simp [ringNew, Consistent.new,
      Consistent.with_number_of_replicas]) (fun x hx => hx)
  refine ⟨?_, ?_, hc.keys_nodup, ?_⟩
  · rw [hc.sorted_eq]
    exact sortedKeys_sorted _
  · rw [hc.sorted_eq]
    exact sortedKeys_perm _
  · have := cchar_circle_length h (applyMuts h (ringNew R) muts) (touchedNames muts)
      hc (by rw [hrep, hrepnew]; exact hinj) hmsNS
    rw [this, hrep, hrepnew]

/-- Witness for C5 on a concrete three-mutation sequence. -/
theorem C5_witness :
    (applyMuts hT (ringNew 1)
        [Mut.add ("a"), Mut.add ("b"), Mut.remove ("a")]).sorted_hashes.Sorted (· ≤ ·) ∧
      (applyMuts hT (ringNew 1)
        [Mut.add ("a"), Mut.add ("b"), Mut.remove ("a")]).sorted_hashes.Perm
        ((applyMuts hT (ringNew 1)
          [Mut.add ("a"), Mut.add ("b"), Mut.remove ("a")]).circle.map Prod.fst) ∧
      ((applyMuts hT (ringNew 1)
        [Mut.add ("a"), Mut.add ("b"), Mut.remove ("a")]).circle.map Prod.fst).Nodup ∧
      (applyMuts hT (ringNew 1)
        [Mut.add ("a"), Mut.add ("b"), Mut.remove ("a")]).circle.length =
        (applyMuts hT (ringNew 1)
          [Mut.add ("a"), Mut.add ("b"), Mut.remove ("a")]).members.length * 1 :=
  C5_index_and_size_invariants hT 1 [Mut.add ("a"), Mut.add ("b"), Mut.remove ("a")]
    (by unfold VInj; decide)

/-- C8: `set(L)` converges membership to exactly the distinct elements of `L`:
members absent from `L` are removed, elements of `L` not present are added,
members present in both keep exactly their circle entries (they are not
re-replicated), and — absent collisions — the lookup index ends with
`(number of distinct elements of L) * number_of_replicas` entries. -/
theorem C8_set_converges (h : String → Nat) (c : Consistent) (elts : List String)
    (hc : CChar h c)
    (hinj : VInj h c.number_of_replicas (c.members ++ elts)) :
    (∀ x, x ∈ (c.set h elts).members ↔ x ∈ elts) ∧
      (c.set h elts).members.Nodup ∧
      (c.set h elts).sorted_hashes.length = elts.toFinset.card * c.number_of_replicas ∧
      (∀ m ∈ c.members, m ∈ elts → ∀ k,
        (circleGet (c.set h elts).circle k = some m ↔ circleGet c.circle k = some m)) := by
  obtain ⟨hc1, hmem1, hrep1⟩ := cchar_set h c elts (c.members ++ elts) hc hinj
    (fun x hx => List.mem_append.mpr (Or.inl hx))
    (fun x hx => List.mem_append.mpr (Or.inr hx))
  refine ⟨hmem1, hc1.members_nodup, ?_, ?_⟩
  · have hlen := cchar_circle_length h (c.set h elts) (c.members ++ elts) hc1
      (hrep1 ▸ hinj) (fun x hx => List.mem_append.mpr (Or.inr ((hmem1 x).mp hx)))
    have hsl : (c.set h elts).sorted_hashes.length = (c.set h elts).circle.length := by
      rw [hc1.sorted_eq, sortedKeys_length]
    have htf : (c.set h elts).members.toFinset = elts.toFinset := by
      ext x
      rw [List.mem_toFinset, List.mem_toFinset, hmem1 x]
    have hml : (c.set h elts).members.length = elts.toFinset.card := by
      rw [← List.toFinset_card_of_nodup hc1.members_nodup, htf]
    rw [hsl, hlen, hml, hrep1]
  · intro m hm hml k
    rw [cchar_lookup h c hc k m, cchar_lookup h (c.set h elts) hc1 k m, hrep1]
    constructor
    · rintro ⟨_, hex⟩
      exact ⟨hm, hex⟩
    · rintro ⟨_, hex⟩
      exact ⟨(hmem1 m).mpr hml, hex⟩

/-- Witness for C8: converging the two-member ring to the list b, c, b
(duplicates tolerated). -/
theorem C8_witness :
    (∀ x, x ∈ (cT.set hT [("b"), ("c"), ("b")]).members ↔ x ∈ [("b"), ("c"), ("b")]) ∧
      (cT.set hT [("b"), ("c"), ("b")]).members.Nodup ∧
      (cT.set hT [("b"), ("c"), ("b")]).sorted_hashes.length =
        ([("b"), ("c"), ("b")] : List String).toFinset.card * cT.number_of_replicas ∧
      (∀ m ∈ cT.members, m ∈ [("b"), ("c"), ("b")] → ∀ k,
        (circleGet (cT.set hT [("b"), ("c"), ("b")]).circle k = some m ↔
          circleGet cT.circle k = some m)) :=
  C8_set_converges hT cT [("b"), ("c"), ("b")]
    ⟨by decide, by decide, by decide, by decide, by decide⟩ (by unfold VInj; decide)

/-! ### Queries do not mutate the state (frame property) -/

theorem getTwoLoopS_eq (a : String) (i : Nat) :
    ∀ fuel j (c : Consistent),
      getTwoLoopS a i fuel j c = (c, getTwoLoop c.circle c.sorted_hashes a i fuel j) := by
  intro fuel
  induction fuel with
  | zero => intro j c; rfl
  | succ n ih =>
    intro j c
    unfold getTwoLoopS getTwoLoop
    by_cases hj : j = i
    · simp [hj]
    · simp only [hj, if_false, sortedReadS, circleGetS]
      split <;> split <;> first | rfl | exact ih _ _

theorem getNLoopS_eq (n i : Nat) :
    ∀ fuel j res (c : Consistent),
      getNLoopS n i fuel j res c = (c, getNLoop c.circle c.sorted_hashes n i fuel j res) := by
  intro fuel
  induction fuel with
  | zero => intro j res c; rfl
  | succ m ih =>
    intro j res c
    unfold getNLoopS getNLoop
    by_cases hj : j = i
    · simp [hj]
    · simp only [hj, if_false, sortedReadS, circleGetS]
      split <;> split <;> split <;> first | rfl | exact ih _ _ _

theorem getS_eq (h : String → Nat) (c : Consistent) (name : String) :
    getS h c name = (c, c.get h name) := by
  unfold getS Consistent.get circleIsEmptyS searchS sortedReadS circleGetS Consistent.search
  by_cases he : c.circle.isEmpty <;> simp [he]

theorem getTwoS_eq (h : String → Nat) (c : Consistent) (name : String) (fuel : Nat) :
    getTwoS h c name fuel = (c, c.get_two h name fuel) := by
  unfold getTwoS Consistent.get_two circleIsEmptyS searchS sortedReadS circleGetS countLoadS
    Consistent.search
  by_cases he : c.circle.isEmpty
  · simp [he]
  · simp only [he, Bool.false_eq_true, if_false]
    by_cases hcnt : c.count = 1
    · simp [hcnt]
    · simp only [hcnt, if_false, getTwoLoopS_eq]
      cases getTwoLoop c.circle c.sorted_hashes
        (unwrapStr (circleGet c.circle (c.sorted_hashes.getD
          (let i := (c.sorted_hashes.takeWhile (fun x => x ≤ h name)).length
           if c.sorted_hashes.length ≤ i then 0 else i) 0)))
        (let i := (c.sorted_hashes.takeWhile (fun x => x ≤ h name)).length
         if c.sorted_hashes.length ≤ i then 0 else i) fuel
        ((let i := (c.sorted_hashes.takeWhile (fun x => x ≤ h name)).length
          if c.sorted_hashes.length ≤ i then 0 else i) + 1) <;> rfl

theorem getNS_eq (h : String → Nat) (c : Consistent) (name : String) (n fuel : Nat) :
    getNS h c name n fuel = (c, c.get_n h name n fuel) := by
  unfold getNS Consistent.get_n circleIsEmptyS searchS sortedReadS circleGetS countLoadS
    Consistent.search
  by_cases he : c.circle.isEmpty
  · simp [he]
  · simp only [he, Bool.false_eq_true, if_false]
    by_cases hn : (if c.count < n then c.count else n) = 1
    · simp [hn]
    · simp only [hn, if_false, getNLoopS_eq]
      cases getNLoop c.circle c.sorted_hashes (if c.count < n then c.count else n)
        (let i := (c.sorted_hashes.takeWhile (fun x => x ≤ h name)).length
         if c.sorted_hashes.length ≤ i then 0 else i) fuel
        ((let i := (c.sorted_hashes.takeWhile (fun x => x ≤ h name)).length
          if c.sorted_hashes.length ≤ i then 0 else i) + 1)
        [unwrapStr (circleGet c.circle (c.sorted_hashes.getD
          (let i := (c.sorted_hashes.takeWhile (fun x => x ≤ h name)).length
           if c.sorted_hashes.length ≤ i then 0 else i) 0))] <;> rfl

/-- C10: every query operation (`get`, `get_two`, `get_n`, `members`), run with
each of its state accesses threaded explicitly, returns the ring state it was
given — the entire state (circle, members, sorted index, replica count and
counter) is unchanged whether the query succeeds or fails — and produces the
same answer as the direct definitions. -/
theorem C10_queries_leave_state_unchanged (h : String → Nat) (c : Consistent)
    (name : String) (n fuel : Nat) :
    (getS h c name).1 = c ∧ (getTwoS h c name fuel).1 = c ∧
      (getNS h c name n fuel).1 = c ∧ (membersListS c).1 = c ∧
      (getS h c name).2 = c.get h name ∧
      (getTwoS h c name fuel).2 = c.get_two h name fuel ∧
      (getNS h c name n fuel).2 = c.get_n h name n fuel ∧
      (membersListS c).2 = c.membersList := by
  rw [getS_eq, getTwoS_eq, getNS_eq]
  exact ⟨rfl, rfl, rfl, rfl, rfl, rfl, rfl, rfl⟩

/-! ### Walk support lemmas -/

theorem slice_contains_iff (s : List String) (v : String) :
    slice_contains_member s v = true ↔ v ∈ s := by
  induction s with
  | nil => simp [slice_contains_member]
  | cons m rest ih =>
    by_cases hm : m = v
    · simp [slice_contains_member, hm]
    · have hm2 : ¬v = m := fun he => hm he.symm
      simp [slice_contains_member, hm, ih, hm2]

theorem collectStep_eq (c : Consistent) (res : List String) (e : Nat) :
    collectStep c res e = if valueAt c e ∈ res then res else res ++ [valueAt c e] := by
  unfold collectStep
  by_cases hm : valueAt c e ∈ res
  · rw [if_pos ((slice_contains_iff res _).mpr hm), if_pos hm]
  · rw [if_neg (fun hc => hm ((slice_contains_iff res _).mp hc)), if_neg hm]

theorem collectStep_append (c : Consistent) (res : List String) (e : Nat) :
    ∃ t, collectStep c res e = res ++ t ∧ ∀ v ∈ t, v = valueAt c e := by
  rw [collectStep_eq]
  by_cases hm : valueAt c e ∈ res
  · exact ⟨[], by simp [hm]⟩
  · exact ⟨[valueAt c e], by simp [hm]⟩

theorem mem_collectStep_self (c : Consistent) (res : List String) (e : Nat) :
    valueAt c e ∈ collectStep c res e := by
  rw [collectStep_eq]
  by_cases hm : valueAt c e ∈ res <;> simp [hm]

theorem mem_collectStep_of_mem (c : Consistent) (res : List String) (e : Nat) (v : String)
    (hv : v ∈ res) : v ∈ collectStep c res e := by
  rw [collectStep_eq]
  by_cases hm : valueAt c e ∈ res <;> simp [hm, hv]

theorem mem_collectStep (c : Consistent) (res : List String) (e : Nat) (v : String)
    (hv : v ∈ collectStep c res e) : v ∈ res ∨ v = valueAt c e := by
  rw [collectStep_eq] at hv
  by_cases hm : valueAt c e ∈ res
  · rw [if_pos hm] at hv
    exact Or.inl hv
  · rw [if_neg hm] at hv
    rcases List.mem_append.mp hv with hv | hv
    · exact Or.inl hv
    · exact Or.inr (by simpa using hv)

theorem collectStep_nodup (c : Consistent) (res : List String) (e : Nat)
    (hnd : res.Nodup) : (collectStep c res e).Nodup := by
  rw [collectStep_eq]
  by_cases hm : valueAt c e ∈ res
  · simpa [hm] using hnd
  · simp [hm, List.nodup_append, hnd]

theorem collectStep_length_le (c : Consistent) (res : List String) (e : Nat) :
    (collectStep c res e).length ≤ res.length + 1 := by
  rw [collectStep_eq]
  by_cases hm : valueAt c e ∈ res <;> simp [hm]

theorem length_le_collectStep (c : Consistent) (res : List String) (e : Nat) :
    res.length ≤ (collectStep c res e).length := by
  rw [collectStep_eq]
  by_cases hm : valueAt c e ∈ res <;> simp [hm]

theorem walkFold_ext (c : Consistent) (es : List Nat) :
    ∀ res, ∃ t, walkFold c res es = res ++ t ∧
      ∀ v ∈ t, ∃ e ∈ es, v = valueAt c e := by
  induction es with
  | nil => exact fun res => ⟨[], by simp [walkFold]⟩
  | cons e rest ih =>
    intro res
    obtain ⟨t1, ht1, hv1⟩ := collectStep_append c res e
    obtain ⟨t2, ht2, hv2⟩ := ih (collectStep c res e)
    refine ⟨t1 ++ t2, ?_, ?_⟩
    · show (e :: rest).foldl (collectStep c) res = res ++ (t1 ++ t2)
      rw [List.foldl_cons]
      show walkFold c (collectStep c res e) rest = res ++ (t1 ++ t2)
      rw [ht2, ht1, List.append_assoc]
    · intro v hv
      rcases List.mem_append.mp hv with hv | hv
      · exact ⟨e, List.mem_cons_self _ _, hv1 v hv⟩
      · obtain ⟨e2, he2, hve⟩ := hv2 v hv
        exact ⟨e2, List.mem_cons_of_mem _ he2, hve⟩

theorem mem_walkFold_of_mem (c : Consistent) (es : List Nat) (res : List String)
    (v : String) (hv : v ∈ res) : v ∈ walkFold c res es := by
  obtain ⟨t, ht, _⟩ := walkFold_ext c es res
  rw [ht]
  exact List.mem_append.mpr (Or.inl hv)

theorem mem_walkFold_val (c : Consistent) (es : List Nat) :
    ∀ res e, e ∈ es → valueAt c e ∈ walkFold c res es := by
  induction es with
  | nil => simp
  | cons e0 rest ih =>
    intro res e he
    show valueAt c e ∈ walkFold c (collectStep c res e0) rest
    rcases List.mem_cons.mp he with rfl | he
    · exact mem_walkFold_of_mem c rest _ _ (mem_collectStep_self c res e)
    · exact ih _ e he

theorem firstDiff_append (c : Consistent) (a : String) (l1 l2 : List Nat) :
    firstDiff c a (l1 ++ l2) =
      match firstDiff c a l1 with
      | some b => some b
      | none => firstDiff c a l2 := by
  induction l1 with
  | nil => simp [firstDiff]
  | cons e rest ih =>
    by_cases hv : valueAt c e = a <;> simp [firstDiff, hv, ih]

theorem firstDiff_eq_none_iff (c : Consistent) (a : String) (es : List Nat) :
    firstDiff c a es = none ↔ ∀ e ∈ es, valueAt c e = a := by
  induction es with
  | nil => simp [firstDiff]
  | cons e rest ih =>
    by_cases hv : valueAt c e = a <;> simp [firstDiff, hv, ih]

theorem firstDiff_some (c : Consistent) (a : String) (es : List Nat) (b : String)
    (h : firstDiff c a es = some b) : ¬b = a ∧ ∃ e ∈ es, valueAt c e = b := by
  induction es with
  | nil => simp [firstDiff] at h
  | cons e rest ih =>
    by_cases hv : valueAt c e = a
    · simp only [firstDiff, hv, if_pos] at h
      obtain ⟨hb, e2, he2, hve⟩ := ih (by simpa [firstDiff, hv] using h)
      exact ⟨hb, e2, List.mem_cons_of_mem _ he2, hve⟩
    · have hb : b = valueAt c e := by
        have := (by simpa [firstDiff, hv] using h : some (valueAt c e) = some b)
        exact (Option.some.inj this).symm
      exact ⟨hb ▸ hv, e, List.mem_cons_self _ _, hb.symm⟩

theorem walkOrder_decomp (len i : Nat) (hi : i < len) :
    walkOrder len i = List.range' (i + 1) (len - (i + 1)) ++ List.range' 0 i := by
  unfold walkOrder
  have hsplit : List.range (len - 1) =
      List.range' 0 (len - (i + 1)) ++ List.range' (len - (i + 1)) i := by
    have happ := List.range'_append 0 (len - (i + 1)) i 1
    simp only [Nat.one_mul, Nat.zero_add] at happ
    have hlen : len - 1 = i + (len - (i + 1)) := by omega
    rw [List.range_eq_range', hlen, ← happ]
  rw [hsplit, List.map_append]
  congr 1
  · have hcg : ∀ t ∈ List.range' 0 (len - (i + 1)), (i + 1 + t) % len = i + 1 + t := by
      intro t ht
      have := List.mem_range'_1.mp ht
      exact Nat.mod_eq_of_lt (by omega)
    rw [List.map_congr_left hcg]
    rw [List.range'_eq_map_range, List.range'_eq_map_range, List.map_map]
    apply List.map_congr_left
    intro t ht
    simp [Function.comp]
  · have hcg : ∀ t ∈ List.range' (len - (i + 1)) i, (i + 1 + t) % len = t - (len - (i + 1)) := by
      intro t ht
      have hm := List.mem_range'_1.mp ht
      have h1 : len ≤ i + 1 + t := by omega
      rw [Nat.mod_eq_sub_mod h1, Nat.mod_eq_of_lt (by omega)]
      omega
    rw [List.map_congr_left hcg]
    rw [List.range'_eq_map_range, List.range'_eq_map_range, List.map_map]
    apply List.map_congr_left
    intro t ht
    simp only [Function.comp, List.mem_range] at ht ⊢
    omega

theorem walkOrder_mem (len i idx : Nat) (hi : i < len) (hidx : idx < len)
    (hne : idx ≠ i) : idx ∈ walkOrder len i := by
  rw [walkOrder_decomp len i hi, List.mem_append]
  by_cases hlt : idx < i
  · right
    rw [List.mem_range'_1]
    omega
  · left
    rw [List.mem_range'_1]
    omega

theorem walkOrder_lt (len i e : Nat) (hi : i < len) (he : e ∈ walkOrder len i) :
    e < len ∧ e ≠ i := by
  rw [walkOrder_decomp len i hi, List.mem_append] at he
  rcases he with he | he <;> (rw [List.mem_range'_1] at he; omega)

/-! ### Positions, values and members on a well-formed ring -/

theorem valueAt_lookup (h : String → Nat) (c : Consistent) (hc : CChar h c)
    (idx : Nat) (hidx : idx < c.sorted_hashes.length) :
    circleGet c.circle (c.sorted_hashes.getD idx 0) = some (valueAt c idx) ∧
      valueAt c idx ∈ c.members := by
  have hmem : c.sorted_hashes.getD idx 0 ∈ c.sorted_hashes := by
    rw [List.getD_eq_getElem _ _ hidx]
    exact List.getElem_mem hidx
  have hkeys : c.sorted_hashes.getD idx 0 ∈ c.circle.map Prod.fst :=
    (mem_sorted_iff_keys c hc.sorted_eq _).mp hmem
  obtain ⟨v, hv⟩ := Option.isSome_iff_exists.mp ((circleGet_isSome_iff _ _).mpr hkeys)
  have hval : valueAt c idx = v := by
    unfold valueAt
    rw [hv]
    rfl
  refine ⟨hval ▸ hv, hval ▸ (hc.entries _ (circleGet_mem _ _ _ hv)).1⟩

theorem member_has_idx (h : String → Nat) (c : Consistent) (hc : CChar h c)
    (hR : 0 < c.number_of_replicas) (m : String) (hm : m ∈ c.members) :
    ∃ idx, idx < c.sorted_hashes.length ∧ valueAt c idx = m := by
  have h0 : 0 ∈ List.range c.number_of_replicas := by simpa using hR
  have hget := hc.complete m hm 0 h0
  have hkeys : h (elt_key m 0) ∈ c.circle.map Prod.fst := by
    rw [← circleGet_isSome_iff, hget]
    rfl
  have hsmem : h (elt_key m 0) ∈ c.sorted_hashes :=
    (mem_sorted_iff_keys c hc.sorted_eq _).mpr hkeys
  obtain ⟨idx, hidx, hval⟩ := List.mem_iff_getElem.mp hsmem
  refine ⟨idx, hidx, ?_⟩
  unfold valueAt
  rw [List.getD_eq_getElem _ _ hidx, hval, hget]
  rfl

theorem circle_ne_nil (h : String → Nat) (c : Consistent) (hc : CChar h c)
    (hR : 0 < c.number_of_replicas) (hne : c.members ≠ []) : c.circle ≠ [] := by
  obtain ⟨m, hm⟩ := List.exists_mem_of_ne_nil c.members hne
  have hget := hc.complete m hm 0 (by simpa using hR)
  intro hnil
  rw [hnil] at hget
  simp [circleGet] at hget

theorem exists_other_member (ms : List String) (a : String) (hnd : ms.Nodup)
    (hlen : 1 < ms.length) (ha : a ∈ ms) : ∃ b ∈ ms, b ≠ a := by
  by_contra hno
  push_neg at hno
  have hle : ms.length ≤ 1 := by
    cases ms with
    | nil => simp
    | cons x xs =>
      cases xs with
      | nil => simp
      | cons y ys =>
        exfalso
        have hx : x = a := hno x (List.mem_cons_self _ _)
        have hy : y = a := hno y (List.mem_cons_of_mem _ (List.mem_cons_self _ _))
        have := (List.nodup_cons.mp hnd).1
        exact this (by rw [hx, ← hy]; exact List.mem_cons_self _ _)
  omega

/-! ### The get_two walk -/

theorem getTwoLoop_step (circle : List (Nat × String)) (sorted : List Nat) (a : String)
    (i fuel j : Nat) (hj : j ≠ i) :
    getTwoLoop circle sorted a i (fuel + 1) j =
      (let j1 := if sorted.length ≤ j then 0 else j
       let v := unwrapStr (circleGet circle (sorted.getD j1 0))
       if ¬a = v then some v else getTwoLoop circle sorted a i fuel (j1 + 1)) := by
  conv_lhs => rw [getTwoLoop]
  rw [if_neg hj]

theorem getTwoLoop_break (c : Consistent) (a : String) (i L : Nat)
    (hL : L ≤ c.sorted_hashes.length) :
    ∀ fuel j (b : String), j ≤ L → (∀ t, j ≤ t → t < L → t ≠ i) →
      L - j ≤ fuel →
      firstDiff c a (List.range' j (L - j)) = some b →
      getTwoLoop c.circle c.sorted_hashes a i fuel j = some b := by
  intro fuel
  induction fuel with
  | zero =>
    intro j b hjL hne hfj hfd
    have : L - j = 0 := by omega
    rw [this] at hfd
    simp [firstDiff] at hfd
  | succ f ih =>
    intro j b hjL hne hfj hfd
    by_cases hLj : L - j = 0
    · rw [hLj] at hfd
      simp [firstDiff] at hfd
    · have hjlt : j < L := by omega
      have hji : j ≠ i := hne j (by omega) hjlt
      rw [getTwoLoop_step _ _ _ _ _ _ hji]
      have hjlen : ¬c.sorted_hashes.length ≤ j := by omega
      simp only [hjlen, if_false]
      have hrange : List.range' j (L - j) = j :: List.range' (j + 1) (L - (j + 1)) := by
        have h1 : L - j = (L - (j + 1)) + 1 := by omega
        rw [h1, List.range'_succ]
      rw [hrange] at hfd
      by_cases hv : valueAt c j = a
      · simp only [firstDiff, hv, if_pos] at hfd
        have hna : ¬¬a = unwrapStr (circleGet c.circle (c.sorted_hashes.getD j 0)) := by
          show ¬¬a = valueAt c j
          simp [hv]
        simp only [hna, if_false]
        exact ih (j + 1) b (by omega) (fun t h1 h2 => hne t (by omega) h2) (by omega) hfd
      · have hfd2 : b = valueAt c j := by
          have := (by simpa [firstDiff, hv] using hfd : some (valueAt c j) = some b)
          exact (Option.some.inj this).symm
        have hna : ¬a = unwrapStr (circleGet c.circle (c.sorted_hashes.getD j 0)) := by
          show ¬a = valueAt c j
          exact fun he => hv he.symm
        rw [if_pos hna, hfd2]
        rfl

theorem getTwoLoop_pass (c : Consistent) (a : String) (i L : Nat)
    (hL : L ≤ c.sorted_hashes.length) :
    ∀ d j fuel, L - j = d → j ≤ L → (∀ t, j ≤ t → t < L → t ≠ i) →
      firstDiff c a (List.range' j (L - j)) = none →
      getTwoLoop c.circle c.sorted_hashes a i ((L - j) + fuel) j =
        getTwoLoop c.circle c.sorted_hashes a i fuel L := by
  intro d
  induction d with
  | zero =>
    intro j fuel hd hjL _ _
    have hj : j = L := by omega
    rw [hd, hj, Nat.zero_add]
  | succ d ih =>
    intro j fuel hd hjL hne hnone
    have hjlt : j < L := by omega
    have hji : j ≠ i := hne j (by omega) hjlt
    have hstep : (L - j) + fuel = ((L - (j + 1)) + fuel) + 1 := by omega
    rw [hstep, getTwoLoop_step _ _ _ _ _ _ hji]
    have hjlen : ¬c.sorted_hashes.length ≤ j := by omega
    simp only [hjlen, if_false]
    have hrange : List.range' j (L - j) = j :: List.range' (j + 1) (L - (j + 1)) := by
      have h1 : L - j = (L - (j + 1)) + 1 := by omega
      rw [h1, List.range'_succ]
    rw [hrange] at hnone
    have hv : valueAt c j = a := by
      by_contra hv
      simp [firstDiff, hv] at hnone
    have hrest : firstDiff c a (List.range' (j + 1) (L - (j + 1))) = none := by
      simpa [firstDiff, hv] using hnone
    have hna : ¬¬a = unwrapStr (circleGet c.circle (c.sorted_hashes.getD j 0)) := by
      show ¬¬a = valueAt c j
      simp [hv]
    simp only [hna, if_false]
    exact ih (j + 1) fuel (by omega) (by omega) (fun t h1 h2 => hne t (by omega) h2) hrest

theorem getTwoLoop_at_len (c : Consistent) (a : String) (i fuel : Nat)
    (hi : i < c.sorted_hashes.length) :
    getTwoLoop c.circle c.sorted_hashes a i (fuel + 1) c.sorted_hashes.length =
      if ¬a = valueAt c 0 then some (valueAt c 0)
      else getTwoLoop c.circle c.sorted_hashes a i fuel 1 := by
  rw [getTwoLoop_step _ _ _ _ _ _ (by omega)]
  simp only [le_refl, if_true, if_pos]
  rfl

theorem getTwoLoop_finds_first (c : Consistent) (a : String) (i : Nat)
    (hi : i < c.sorted_hashes.length)
    (hvi : valueAt c i = a)
    (hdiff : ∃ e ∈ walkOrder c.sorted_hashes.length i, ¬valueAt c e = a)
    (fuel : Nat) (hfuel : c.sorted_hashes.length + 1 ≤ fuel) :
    ∃ b, getTwoLoop c.circle c.sorted_hashes a i fuel (i + 1) = some b ∧
      firstDiff c a (walkOrder c.sorted_hashes.length i) = some b := by
  have hdecomp := walkOrder_decomp c.sorted_hashes.length i hi
  have hseg1len : c.sorted_hashes.length - (i + 1) ≤ fuel := by omega
  cases hf1 : firstDiff c a (List.range' (i + 1) (c.sorted_hashes.length - (i + 1))) with
  | some b =>
    refine ⟨b, ?_, ?_⟩
    · exact getTwoLoop_break c a i c.sorted_hashes.length (le_refl _) fuel (i + 1) b
        (by omega) (fun t h1 h2 => by omega) hseg1len hf1
    · rw [hdecomp, firstDiff_append, hf1]
  | none =>
    have hseg1 : ∀ e ∈ List.range' (i + 1) (c.sorted_hashes.length - (i + 1)),
        valueAt c e = a := (firstDiff_eq_none_iff _ _ _).mp hf1
    by_cases hi0 : i = 0
    · exfalso
      obtain ⟨e, he, hev⟩ := hdiff
      rw [hdecomp, hi0] at he
      simp only [List.range'_zero, List.append_nil] at he
      exact hev (hseg1 e (by simpa [hi0] using he))
    · obtain ⟨i', rfl⟩ : ∃ i', i = i' + 1 := ⟨i - 1, by omega⟩
      set len := c.sorted_hashes.length with hlenDef
      set rest := fuel - (len - (i' + 1 + 1)) with hrest
      have hfe : fuel = (len - (i' + 1 + 1)) + rest := by omega
      have hrest2 : 2 + i' ≤ rest := by omega
      have hpass := getTwoLoop_pass c a (i' + 1) len (le_refl _) (len - (i' + 1 + 1))
        (i' + 1 + 1) rest rfl (by omega) (fun t h1 h2 => by omega) hf1
      obtain ⟨r, hr⟩ : ∃ r, rest = r + 1 := ⟨rest - 1, by omega⟩
      have hrange0 : List.range' 0 (i' + 1) = 0 :: List.range' 1 i' := List.range'_succ _ _ _
      by_cases hv0 : ¬a = valueAt c 0
      · refine ⟨valueAt c 0, ?_, ?_⟩
        · rw [hfe, hpass, hr, getTwoLoop_at_len c a (i' + 1) r (by omega), if_pos hv0]
        · rw [hdecomp, firstDiff_append, hf1, hrange0]
          have hv0' : ¬valueAt c 0 = a := fun he => hv0 he.symm
          simp [firstDiff, hv0']
      · push_neg at hv0
        have hv0' : valueAt c 0 = a := hv0.symm
        obtain ⟨e, he, hev⟩ := hdiff
        rw [hdecomp] at he
        have he2 : e ∈ List.range' 1 i' := by
          rcases List.mem_append.mp he with he | he
          · exact absurd (hseg1 e he) hev
          · rw [hrange0] at he
            rcases List.mem_cons.mp he with rfl | he
            · exact absurd hv0' hev
            · exact he
        cases hf2 : firstDiff c a (List.range' 1 i') with
        | none =>
          exfalso
          exact hev ((firstDiff_eq_none_iff _ _ _).mp hf2 e he2)
        | some b =>
          refine ⟨b, ?_, ?_⟩
          · rw [hfe, hpass, hr, getTwoLoop_at_len c a (i' + 1) r (by omega), if_neg (by
              simp [hv0'])]
            have hran : List.range' 1 ((i' + 1) - 1) = List.range' 1 i' := by
              congr 1
            exact getTwoLoop_break c a (i' + 1) (i' + 1) (by omega) r 1 b (by omega)
              (fun t h1 h2 => by omega) (by omega) (by rw [hran]; exact hf2)
          · rw [hdecomp, firstDiff_append, hf1, hrange0]
            simp [firstDiff, hv0', hf2]

theorem get_eq_valueAt (h : String → Nat) (c : Consistent) (name : String)
    (hne : c.circle ≠ []) :
    c.get h name = .ok (valueAt c (c.search (h name))) := by
  have hemp : c.circle.isEmpty = false := by
    cases hc : c.circle with
    | nil => exact absurd hc hne
    | cons kv rest => rfl
  simp only [Consistent.get, hemp, Bool.false_eq_true, if_false]
  rfl

theorem get_two_count1 (h : String → Nat) (c : Consistent) (name : String) (fuel : Nat)
    (hne : c.circle ≠ []) (hcnt : c.count = 1) :
    c.get_two h name fuel = some (.ok (valueAt c (c.search (h name)), "")) := by
  have hemp : c.circle.isEmpty = false := by
    cases hc : c.circle with
    | nil => exact absurd hc hne
    | cons kv rest => rfl
  simp only [Consistent.get_two, hemp, Bool.false_eq_true, if_false, hcnt, if_true, if_pos]
  rfl

theorem get_two_unfold (h : String → Nat) (c : Consistent) (name : String) (fuel : Nat)
    (hne : c.circle ≠ []) (hcnt : ¬c.count = 1) :
    c.get_two h name fuel =
      match getTwoLoop c.circle c.sorted_hashes (valueAt c (c.search (h name)))
          (c.search (h name)) fuel (c.search (h name) + 1) with
      | none => none
      | some b => some (.ok (valueAt c (c.search (h name)), b)) := by
  have hemp : c.circle.isEmpty = false := by
    cases hc : c.circle with
    | nil => exact absurd hc hne
    | cons kv rest => rfl
  simp only [Consistent.get_two, hemp, Bool.false_eq_true, if_false, hcnt]
  rfl

/-- C7 (amended): on a well-formed collision-free ring with an accurate counter
and at least one member, `get_two(key)` returns the primary owner (the member
`get(key)` returns) paired with the first member met walking clockwise whose
name differs from the primary; when the ring holds exactly one member the
second component is the empty-string placeholder and no error is raised.  (The
accurate-counter hypothesis is necessary: after a duplicated `add` the walk can
run forever — see the C9 record.) -/
theorem C7_get_two_primary_and_next (h : String → Nat) (c : Consistent) (name : String)
    (hc : CChar h c) (hcount : c.count = c.members.length)
    (hR : 0 < c.number_of_replicas) (hne : c.members ≠ []) :
    ∃ a b, c.get h name = .ok a ∧
      c.get_two h name (c.sorted_hashes.length + 1) = some (.ok (a, b)) ∧
      (c.members.length = 1 → b = "") ∧
      (1 < c.members.length →
        firstDiff c a (walkOrder c.sorted_hashes.length (c.search (h name))) = some b ∧
        b ≠ a ∧ b ∈ c.members) := by
  have hcne : c.circle ≠ [] := circle_ne_nil h c hc hR hne
  have hsne : c.sorted_hashes ≠ [] := sorted_ne_nil c hc.sorted_eq hcne
  have hi : c.search (h name) < c.sorted_hashes.length := by
    rw [search_eq_searchIdx]
    exact searchIdx_lt_length _ _ hsne
  obtain ⟨hlook, hamem⟩ := valueAt_lookup h c hc _ hi
  set i := c.search (h name) with hidef
  set a := valueAt c i with hadef
  have hget : c.get h name = .ok a := get_eq_valueAt h c name hcne
  by_cases h1 : c.members.length = 1
  · refine ⟨a, "", hget, ?_, fun _ => rfl, fun hgt => by omega⟩
    exact get_two_count1 h c name _ hcne (hcount.trans h1)
  · have hgt : 1 < c.members.length :=
      Nat.lt_of_le_of_ne (Nat.one_le_iff_ne_zero.mpr
        (fun h0 => hne (List.length_eq_zero.mp h0))) (Ne.symm h1)
    obtain ⟨b2, hb2m, hb2ne⟩ := exists_other_member c.members a hc.members_nodup hgt hamem
    obtain ⟨idx, hidx, hval⟩ := member_has_idx h c hc hR b2 hb2m
    have hidxne : idx ≠ i := by
      intro he
      rw [he] at hval
      exact hb2ne (hval ▸ rfl)
    have hdiff : ∃ e ∈ walkOrder c.sorted_hashes.length i, ¬valueAt c e = a := by
      refine ⟨idx, walkOrder_mem _ _ _ hi hidx hidxne, ?_⟩
      rw [hval]
      exact hb2ne
    obtain ⟨b, hloop, hfd⟩ := getTwoLoop_finds_first c a i hi rfl hdiff
      (c.sorted_hashes.length + 1) (le_refl _)
    have hcnt : ¬c.count = 1 := by omega
    refine ⟨a, b, hget, ?_, fun he => by omega, fun _ => ⟨hfd, ?_, ?_⟩⟩
    · rw [get_two_unfold h c name _ hcne hcnt, hloop]
    · exact (firstDiff_some c a _ b hfd).1
    · obtain ⟨_, e, he, hev⟩ := firstDiff_some c a _ b hfd
      obtain ⟨helt, _⟩ := walkOrder_lt _ _ _ hi he
      rw [← hev]
      exact (valueAt_lookup h c hc e helt).2

/-- Witness for C7 on the concrete two-member ring. -/
theorem C7_witness :
    ∃ a b, cT.get hT ("k") = .ok a ∧
      cT.get_two hT ("k") (cT.sorted_hashes.length + 1) = some (.ok (a, b)) ∧
      (cT.members.length = 1 → b = "") ∧
      (1 < cT.members.length →
        firstDiff cT a (walkOrder cT.sorted_hashes.length (cT.search (hT ("k")))) = some b ∧
        b ≠ a ∧ b ∈ cT.members) :=
  C7_get_two_primary_and_next hT cT ("k")
    ⟨by decide, by decide, by decide, by decide, by decide⟩ (by decide) (by decide) (by decide)

/-! ### The get_n walk -/

theorem walkFold_nodup (c : Consistent) (es : List Nat) :
    ∀ res : List String, res.Nodup → (walkFold c res es).Nodup := by
  induction es with
  | nil => exact fun res h => h
  | cons e rest ih =>
    intro res h
    show (walkFold c (collectStep c res e) rest).Nodup
    exact ih _ (collectStep_nodup c res e h)

theorem exists_missing (ms res : List String) (hms : ms.Nodup)
    (hsub : ∀ v ∈ res, v ∈ ms) (hlt : res.length < ms.length) :
    ∃ m ∈ ms, m ∉ res := by
  by_contra hno
  push_neg at hno
  have hcard : ms.toFinset.card ≤ res.toFinset.card :=
    Finset.card_le_card (fun x hx => List.mem_toFinset.mpr (hno x (List.mem_toFinset.mp hx)))
  have h1 : ms.toFinset.card = ms.length := List.toFinset_card_of_nodup hms
  have h2 : res.toFinset.card ≤ res.length := List.toFinset_card_le res
  omega

theorem collectN_sound (c : Consistent) (n : Nat) (es : List Nat) :
    ∀ (res r : List String), collectN c n es res = some r →
      r.length = n ∧ (∃ t, r = res ++ t) ∧ (res.Nodup → r.Nodup) ∧
      (∀ v ∈ r, v ∈ res ∨ ∃ e ∈ es, v = valueAt c e) := by
  induction es with
  | nil =>
    intro res r hr
    simp [collectN] at hr
  | cons e rest ih =>
    intro res r hr
    by_cases hlen : (collectStep c res e).length = n
    · have hsome : some (collectStep c res e) = some r := by
        simpa [collectN, hlen] using hr
      obtain rfl := Option.some.inj hsome
      obtain ⟨t, ht, htv⟩ := collectStep_append c res e
      refine ⟨hlen, ⟨t, ht⟩, collectStep_nodup c res e, ?_⟩
      intro v hv
      rcases mem_collectStep c res e v hv with hv | hv
      · exact Or.inl hv
      · exact Or.inr ⟨e, List.mem_cons_self _ _, hv⟩
    · have hrest : collectN c n rest (collectStep c res e) = some r := by
        simpa [collectN, hlen] using hr
      obtain ⟨hl, ⟨t, ht⟩, hnd, hval⟩ := ih _ r hrest
      obtain ⟨t1, ht1, ht1v⟩ := collectStep_append c res e
      refine ⟨hl, ⟨t1 ++ t, by rw [ht, ht1, List.append_assoc]⟩,
        fun hres => hnd (collectStep_nodup c res e hres), ?_⟩
      intro v hv
      rcases hval v hv with hv | ⟨e2, he2, hve⟩
      · rcases mem_collectStep c res e v hv with hv | hv
        · exact Or.inl hv
        · exact Or.inr ⟨e, List.mem_cons_self _ _, hv⟩
      · exact Or.inr ⟨e2, List.mem_cons_of_mem _ he2, hve⟩

theorem collectN_complete (c : Consistent) (ms : List String) (n : Nat) (hmsnd : ms.Nodup)
    (hnms : n ≤ ms.length) (es : List Nat) :
    ∀ (res : List String),
      res.Nodup → (∀ v ∈ res, v ∈ ms) → res.length < n →
      (∀ e ∈ es, valueAt c e ∈ ms) →
      (∀ m ∈ ms, m ∉ res → ∃ e ∈ es, valueAt c e = m) →
      ∃ r, collectN c n es res = some r := by
  induction es with
  | nil =>
    intro res hnd hsub hlt _ hcov
    obtain ⟨m, hm, hmr⟩ := exists_missing ms res hmsnd hsub (by omega)
    obtain ⟨e, he, _⟩ := hcov m hm hmr
    simp at he
  | cons e rest ih =>
    intro res hnd hsub hlt hval hcov
    by_cases hlen : (collectStep c res e).length = n
    · exact ⟨collectStep c res e, by simp [collectN, hlen]⟩
    · have hstep_le := collectStep_length_le c res e
      have hlt1 : (collectStep c res e).length < n := by omega
      have hnd1 := collectStep_nodup c res e hnd
      have hsub1 : ∀ v ∈ collectStep c res e, v ∈ ms := by
        intro v hv
        rcases mem_collectStep c res e v hv with hv | rfl
        · exact hsub v hv
        · exact hval e (List.mem_cons_self _ _)
      have hcov1 : ∀ m ∈ ms, m ∉ collectStep c res e →
          ∃ e2 ∈ rest, valueAt c e2 = m := by
        intro m hm hmr
        have hmr0 : m ∉ res := fun hc => hmr (mem_collectStep_of_mem c res e m hc)
        obtain ⟨e2, he2, hve2⟩ := hcov m hm hmr0
        rcases List.mem_cons.mp he2 with rfl | he2
        · exact absurd (hve2 ▸ mem_collectStep_self c res e2) hmr
        · exact ⟨e2, he2, hve2⟩
      obtain ⟨r, hr⟩ := ih (collectStep c res e) hnd1 hsub1 hlt1
        (fun e2 he2 => hval e2 (List.mem_cons_of_mem _ he2)) hcov1
      exact ⟨r, by simp [collectN, hlen, hr]⟩

theorem collectN_none_lt (c : Consistent) (n : Nat) (es : List Nat) :
    ∀ (res : List String), res.length < n → collectN c n es res = none →
      (walkFold c res es).length < n := by
  induction es with
  | nil => exact fun res hlt _ => hlt
  | cons e rest ih =>
    intro res hlt hnone
    by_cases hlen : (collectStep c res e).length = n
    · simp [collectN, hlen] at hnone
    · have hrest : collectN c n rest (collectStep c res e) = none := by
        simpa [collectN, hlen] using hnone
      have hle := collectStep_length_le c res e
      show (walkFold c (collectStep c res e) rest).length < n
      exact ih _ (by omega) hrest

theorem getNLoop_step (c : Consistent) (n i fuel j : Nat) (res : List String)
    (hj : j ≠ i) (hjlen : ¬c.sorted_hashes.length ≤ j) :
    getNLoop c.circle c.sorted_hashes n i (fuel + 1) j res =
      (if (collectStep c res j).length = n then some (collectStep c res j)
       else getNLoop c.circle c.sorted_hashes n i fuel (j + 1) (collectStep c res j)) := by
  conv_lhs => rw [getNLoop]
  rw [if_neg hj]
  simp only [hjlen, if_false]
  rfl

theorem getNLoop_at_len (c : Consistent) (n i fuel : Nat) (res : List String)
    (hi : i < c.sorted_hashes.length) :
    getNLoop c.circle c.sorted_hashes n i (fuel + 1) c.sorted_hashes.length res =
      (if (collectStep c res 0).length = n then some (collectStep c res 0)
       else getNLoop c.circle c.sorted_hashes n i fuel 1 (collectStep c res 0)) := by
  conv_lhs => rw [getNLoop]
  rw [if_neg (by omega : ¬c.sorted_hashes.length = i)]
  simp only [le_refl, if_true, if_pos]
  rfl

theorem getNLoop_break (c : Consistent) (n i L : Nat) (hL : L ≤ c.sorted_hashes.length) :
    ∀ fuel j (res r : List String), j ≤ L → (∀ t, j ≤ t → t < L → t ≠ i) →
      L - j ≤ fuel →
      collectN c n (List.range' j (L - j)) res = some r →
      getNLoop c.circle c.sorted_hashes n i fuel j res = some r := by
  intro fuel
  induction fuel with
  | zero =>
    intro j res r hjL hne hfj hcn
    have h0 : L - j = 0 := by omega
    rw [h0] at hcn
    simp [collectN] at hcn
  | succ f ih =>
    intro j res r hjL hne hfj hcn
    by_cases hLj : L - j = 0
    · rw [hLj] at hcn
      simp [collectN] at hcn
    · have hjlt : j < L := by omega
      have hji : j ≠ i := hne j (by omega) hjlt
      rw [getNLoop_step c n i f j res hji (by omega)]
      have hrange : List.range' j (L - j) = j :: List.range' (j + 1) (L - (j + 1)) := by
        have h1 : L - j = (L - (j + 1)) + 1 := by omega
        rw [h1, List.range'_succ]
      rw [hrange] at hcn
      by_cases hlen : (collectStep c res j).length = n
      · have : some (collectStep c res j) = some r := by
          simpa [collectN, hlen] using hcn
        rw [if_pos hlen, this]
      · have hrest : collectN c n (List.range' (j + 1) (L - (j + 1)))
            (collectStep c res j) = some r := by
          simpa [collectN, hlen] using hcn
        rw [if_neg hlen]
        exact ih (j + 1) _ r (by omega) (fun t h1 h2 => hne t (by omega) h2) (by omega) hrest

theorem getNLoop_pass (c : Consistent) (n i L : Nat) (hL : L ≤ c.sorted_hashes.length) :
    ∀ d j (res : List String) fuel, L - j = d → j ≤ L →
      (∀ t, j ≤ t → t < L → t ≠ i) →
      collectN c n (List.range' j (L - j)) res = none →
      getNLoop c.circle c.sorted_hashes n i ((L - j) + fuel) j res =
        getNLoop c.circle c.sorted_hashes n i fuel L
          (walkFold c res (List.range' j (L - j))) := by
  intro d
  induction d with
  | zero =>
    intro j res fuel hd hjL _ _
    have hj : j = L := by omega
    rw [hd, hj, Nat.zero_add]
    simp [walkFold]
  | succ d ih =>
    intro j res fuel hd hjL hne hnone
    have hjlt : j < L := by omega
    have hji : j ≠ i := hne j (by omega) hjlt
    have hstep : (L - j) + fuel = ((L - (j + 1)) + fuel) + 1 := by omega
    rw [hstep, getNLoop_step c n i _ j res hji (by omega)]
    have hrange : List.range' j (L - j) = j :: List.range' (j + 1) (L - (j + 1)) := by
      have h1 : L - j = (L - (j + 1)) + 1 := by omega
      rw [h1, List.range'_succ]
    rw [hrange] at hnone
    by_cases hlen : (collectStep c res j).length = n
    · simp [collectN, hlen] at hnone
    · have hrest : collectN c n (List.range' (j + 1) (L - (j + 1)))
          (collectStep c res j) = none := by
        simpa [collectN, hlen] using hnone
      rw [if_neg hlen]
      have hgoal := ih (j + 1) (collectStep c res j) fuel (by omega) (by omega)
        (fun t h1 h2 => hne t (by omega) h2) hrest
      rw [hgoal, hrange]
      rfl

theorem getNLoop_main (h : String → Nat) (c : Consistent) (hc : CChar h c)
    (hR : 0 < c.number_of_replicas) (n i : Nat)
    (hi : i < c.sorted_hashes.length)
    (hn2 : 2 ≤ n) (hnm : n ≤ c.members.length) :
    ∃ r t, getNLoop c.circle c.sorted_hashes n i (c.sorted_hashes.length + 1) (i + 1)
        [valueAt c i] = some r ∧
      r = valueAt c i :: t ∧ r.length = n ∧ r.Nodup ∧ ∀ v ∈ r, v ∈ c.members := by
  set len := c.sorted_hashes.length with hlenDef
  set a := valueAt c i with hadef
  have hamem : a ∈ c.members := (valueAt_lookup h c hc i hi).2
  have hvmem : ∀ idx, idx < len → valueAt c idx ∈ c.members :=
    fun idx hidx => (valueAt_lookup h c hc idx hidx).2
  have hres0nd : ([a] : List String).Nodup := by simp
  have hres0sub : ∀ v ∈ ([a] : List String), v ∈ c.members := by
    intro v hv
    rw [List.mem_singleton.mp hv]
    exact hamem
  have hres0lt : ([a] : List String).length < n := by simp; omega
  have hsound := collectN_sound c n
  by_cases hi0 : i = 0
  · subst hi0
    have hcov : ∀ m ∈ c.members, m ∉ ([a] : List String) →
        ∃ e ∈ List.range' 1 (len - 1), valueAt c e = m := by
      intro m hm hmr
      obtain ⟨idx, hidx, hval⟩ := member_has_idx h c hc hR m hm
      have hne0 : idx ≠ 0 := by
        intro he
        rw [he] at hval
        exact hmr (by simp [hadef, ← hval])
      exact ⟨idx, List.mem_range'_1.mpr (by omega), hval⟩
    have hval1 : ∀ e ∈ List.range' 1 (len - 1), valueAt c e ∈ c.members := by
      intro e he
      have := List.mem_range'_1.mp he
      exact hvmem e (by omega)
    obtain ⟨r, hr⟩ := collectN_complete c c.members n hc.members_nodup hnm
      (List.range' 1 (len - 1)) [a] hres0nd hres0sub hres0lt hval1 hcov
    have hrange : List.range' 1 (len - 1) = List.range' (0 + 1) (len - (0 + 1)) := by
      norm_num
    obtain ⟨hlen2, ⟨t, ht⟩, hnd, hval⟩ := hsound _ _ _ hr
    refine ⟨r, t, ?_, by simpa using ht, hlen2, hnd hres0nd, ?_⟩
    · apply getNLoop_break c n 0 len hlenDef.ge (len + 1) (0 + 1) [a] r (by omega)
        (fun x h1 h2 => by omega) (by omega)
      rw [← hrange] at hr
      simpa using hr
    · intro v hv
      rcases hval v hv with hv | ⟨e, he, hve⟩
      · exact hres0sub v hv
      · rw [hve]
        exact hval1 e he
  · -- i ≥ 1: first segment, then position 0, then the second segment
    have hi1 : 1 ≤ i := by omega
    have hval1 : ∀ e ∈ List.range' (i + 1) (len - (i + 1)), valueAt c e ∈ c.members := by
      intro e he
      have := List.mem_range'_1.mp he
      exact hvmem e (by omega)
    cases hc1 : collectN c n (List.range' (i + 1) (len - (i + 1))) [a] with
    | some r =>
      obtain ⟨hlen2, ⟨t, ht⟩, hnd, hval⟩ := hsound _ _ _ hc1
      refine ⟨r, t, ?_, by simpa using ht, hlen2, hnd hres0nd, ?_⟩
      · exact getNLoop_break c n i len hlenDef.ge (len + 1) (i + 1) [a] r (by omega)
          (fun x h1 h2 => by omega) (by omega) hc1
      · intro v hv
        rcases hval v hv with hv | ⟨e, he, hve⟩
        · exact hres0sub v hv
        · rw [hve]
          exact hval1 e he
    | none =>
      set res1 := walkFold c [a] (List.range' (i + 1) (len - (i + 1))) with hres1def
      have hres1lt : res1.length < n := collectN_none_lt c n _ [a] hres0lt hc1
      have hres1nd : res1.Nodup := walkFold_nodup c _ [a] hres0nd
      have hres1sub : ∀ v ∈ res1, v ∈ c.members := by
        intro v hv
        obtain ⟨t, ht, htv⟩ := walkFold_ext c (List.range' (i + 1) (len - (i + 1))) [a]
        rw [hres1def, ht] at hv
        rcases List.mem_append.mp hv with hv | hv
        · exact hres0sub v hv
        · obtain ⟨e, he, hve⟩ := htv v hv
          rw [hve]
          exact hval1 e he
      have hamem1 : a ∈ res1 := mem_walkFold_of_mem c _ _ a (List.mem_singleton.mpr rfl)
      have hpass := getNLoop_pass c n i len hlenDef.ge (len - (i + 1)) (i + 1) [a]
        (i + 2) rfl (by omega) (fun t h1 h2 => by omega) hc1
      have hfe : len + 1 = (len - (i + 1)) + (i + 2) := by omega
      set res2 := collectStep c res1 0 with hres2def
      have hres2sub : ∀ v ∈ res2, v ∈ c.members := by
        intro v hv
        rcases mem_collectStep c res1 0 v hv with hv | rfl
        · exact hres1sub v hv
        · exact hvmem 0 (by omega)
      have hres2nd : res2.Nodup := collectStep_nodup c res1 0 hres1nd
      have hamem2 : a ∈ res2 := mem_collectStep_of_mem c res1 0 a hamem1
      have hext2 : ∃ t, res2 = a :: t := by
        obtain ⟨t1, ht1, _⟩ := walkFold_ext c (List.range' (i + 1) (len - (i + 1))) [a]
        obtain ⟨t2, ht2, _⟩ := collectStep_append c res1 0
        refine ⟨t1 ++ t2, ?_⟩
        rw [hres2def, ht2, hres1def, ht1]
        simp
      by_cases hlen2 : res2.length = n
      · obtain ⟨t, ht⟩ := hext2
        refine ⟨res2, t, ?_, ht, hlen2, hres2nd, hres2sub⟩
        rw [hfe, hpass, ← hres1def]
        rw [getNLoop_at_len c n i (i + 1) res1 hi, ← hres2def, if_pos hlen2]
      · have hres2lt : res2.length < n := by
          have h1 := collectStep_length_le c res1 0
          rw [← hres2def] at h1
          omega
        have hcov2 : ∀ m ∈ c.members, m ∉ res2 →
            ∃ e ∈ List.range' 1 (i - 1), valueAt c e = m := by
          intro m hm hmr
          obtain ⟨idx, hidx, hval⟩ := member_has_idx h c hc hR m hm
          have hnei : idx ≠ i := by
            intro he
            rw [he] at hval
            exact hmr (hval ▸ hamem2)
          have hne0 : idx ≠ 0 := by
            intro he
            rw [he] at hval
            exact hmr (hval ▸ mem_collectStep_self c res1 0)
          have hnseg1 : ¬(i + 1 ≤ idx) := by
            intro hge
            have : valueAt c idx ∈ res1 := mem_walkFold_val c _ [a] idx
              (List.mem_range'_1.mpr (by omega))
            exact hmr (hval ▸ mem_collectStep_of_mem c res1 0 _ this)
          exact ⟨idx, List.mem_range'_1.mpr (by omega), hval⟩
        have hval2 : ∀ e ∈ List.range' 1 (i - 1), valueAt c e ∈ c.members := by
          intro e he
          have := List.mem_range'_1.mp he
          exact hvmem e (by omega)
        obtain ⟨r, hr⟩ := collectN_complete c c.members n hc.members_nodup hnm
          (List.range' 1 (i - 1)) res2 hres2nd hres2sub hres2lt hval2 hcov2
        obtain ⟨hlenr, ⟨t, ht⟩, hndr, hvalr⟩ := hsound _ _ _ hr
        obtain ⟨t0, ht0⟩ := hext2
        refine ⟨r, t0 ++ t, ?_, by rw [ht, ht0]; simp, hlenr, hndr hres2nd, ?_⟩
        · rw [hfe, hpass, ← hres1def]
          rw [getNLoop_at_len c n i (i + 1) res1 hi, ← hres2def, if_neg hlen2]
          apply getNLoop_break c n i i (by omega) (i + 1) 1 res2 r (by omega)
            (fun x h1 h2 => by omega) (by omega)
          have hiq : i - 1 = i - 1 := rfl
          simpa using hr
        · intro v hv
          rcases hvalr v hv with hv | ⟨e, he, hve⟩
          · exact hres2sub v hv
          · rw [hve]
            exact hval2 e he

theorem get_n_one (h : String → Nat) (c : Consistent) (name : String) (n fuel : Nat)
    (hne : c.circle ≠ []) (hn1 : (if c.count < n then c.count else n) = 1) :
    c.get_n h name n fuel = some (.ok [valueAt c (c.search (h name))]) := by
  have hemp : c.circle.isEmpty = false := by
    cases hc : c.circle with
    | nil => exact absurd hc hne
    | cons kv rest => rfl
  simp only [Consistent.get_n, hemp, Bool.false_eq_true, if_false, hn1, if_true, if_pos]
  rfl

theorem get_n_unfold (h : String → Nat) (c : Consistent) (name : String) (n fuel : Nat)
    (hne : c.circle ≠ []) (hn1 : ¬(if c.count < n then c.count else n) = 1) :
    c.get_n h name n fuel =
      match getNLoop c.circle c.sorted_hashes (if c.count < n then c.count else n)
          (c.search (h name)) fuel (c.search (h name) + 1)
          [valueAt c (c.search (h name))] with
      | none => none
      | some r => some (.ok r) := by
  have hemp : c.circle.isEmpty = false := by
    cases hc : c.circle with
    | nil => exact absurd hc hne
    | cons kv rest => rfl
  simp only [Consistent.get_n, hemp, Bool.false_eq_true, if_false, hn1]
  rfl

/-- C6 (amended): for every requested count `n ≥ 1`, on a well-formed
collision-free ring with accurate counter and at least one member, `get_n`
succeeds with exactly `min(n, member count)` pairwise-distinct member names
starting at the primary owner; requesting more distinct members than exist is
not an error and silently truncates to the member count.  (The original claim
fails at `n = 0`, where the result still contains the primary owner — see the
counterexample — and `n ≥ 1` also rules out the non-terminating `n = 0` walk
recorded under C3.) -/
theorem C6_get_n_distinct_capped (h : String → Nat) (c : Consistent) (name : String)
    (n : Nat) (hc : CChar h c) (hcount : c.count = c.members.length)
    (hR : 0 < c.number_of_replicas) (hne : c.members ≠ []) (hn : 1 ≤ n) :
    ∃ r t, c.get_n h name n (c.sorted_hashes.length + 1) = some (.ok r) ∧
      c.get h name = .ok (valueAt c (c.search (h name))) ∧
      r = valueAt c (c.search (h name)) :: t ∧
      r.length = min n c.members.length ∧ r.Nodup ∧ ∀ v ∈ r, v ∈ c.members := by
  have hcne : c.circle ≠ [] := circle_ne_nil h c hc hR hne
  have hsne : c.sorted_hashes ≠ [] := sorted_ne_nil c hc.sorted_eq hcne
  have hi : c.search (h name) < c.sorted_hashes.length := by
    rw [search_eq_searchIdx]
    exact searchIdx_lt_length _ _ hsne
  have hmpos : 1 ≤ c.members.length :=
    List.length_pos.mpr hne
  have hget : c.get h name = .ok (valueAt c (c.search (h name))) :=
    get_eq_valueAt h c name hcne
  have hn'eq : (if c.count < n then c.count else n) = min n c.members.length := by
    rw [hcount]
    split <;> omega
  by_cases h1 : (if c.count < n then c.count else n) = 1
  · refine ⟨[valueAt c (c.search (h name))], [], ?_, hget, rfl, ?_, by simp, ?_⟩
    · exact get_n_one h c name n _ hcne h1
    · rw [← hn'eq, h1]
      rfl
    · intro v hv
      rw [List.mem_singleton.mp hv]
      exact (valueAt_lookup h c hc _ hi).2
  · have hn2 : 2 ≤ min n c.members.length := by
      have hge : 1 ≤ min n c.members.length := by omega
      rw [hn'eq] at h1
      omega
    obtain ⟨r, t, hloop, hrt, hrl, hrnd, hrsub⟩ := getNLoop_main h c hc hR
      (min n c.members.length) (c.search (h name)) hi hn2 (by omega)
    refine ⟨r, t, ?_, hget, hrt, hrl, hrnd, hrsub⟩
    rw [get_n_unfold h c name n _ hcne h1, hn'eq, hloop]

/-- Witness for C6: `get_n(key, 2)` on the concrete two-member ring. -/
theorem C6_witness :
    ∃ r t, cT.get_n hT ("k") 2 (cT.sorted_hashes.length + 1) = some (.ok r) ∧
      cT.get hT ("k") = .ok (valueAt cT (cT.search (hT ("k")))) ∧
      r = valueAt cT (cT.search (hT ("k"))) :: t ∧
      r.length = min 2 cT.members.length ∧ r.Nodup ∧ ∀ v ∈ r, v ∈ cT.members :=
  C6_get_n_distinct_capped hT cT ("k") 2
    ⟨by decide, by decide, by decide, by decide, by decide⟩ (by decide) (by decide)
    (by decide) (by decide)

/-- C7 counterexample: `cDup` is a reachable ring with at least one member (in
fact exactly one member in total), yet `get_two` on a key with start index 0
never returns a pair at all — the claim promises the empty-string placeholder
and no error in this situation. -/
theorem C7_counterexample :
    cDup.members.length = 1 ∧ (∀ fuel, cDup.get_two hS ("m") fuel = none) := by
  refine ⟨by decide, ?_⟩
  have hstep : ∀ n, getTwoLoop cDup.circle cDup.sorted_hashes ("a") 0 (n + 1) 1 =
      getTwoLoop cDup.circle cDup.sorted_hashes ("a") 0 n 1 := fun n => rfl
  have hloop : ∀ fuel, getTwoLoop cDup.circle cDup.sorted_hashes ("a") 0 fuel 1 = none := by
    intro fuel
    induction fuel with
    | zero => rfl
    | succ n ih =>
      rw [hstep n]
      exact ih
  intro fuel
  have houter : cDup.get_two hS ("m") fuel =
      match getTwoLoop cDup.circle cDup.sorted_hashes ("a") 0 fuel 1 with
      | none => none
      | some b => some (.ok (("a"), b)) := rfl
  rw [houter, hloop fuel]
